import Mathlib

/-!
Shallow embedding of the Tomasulo simulator core
(`src/Tomasulo's_Algorithm/tomasulo.py`, with the decoded-instruction record
shape from `instruction.py` and the station record from
`reservation_station.py`).

Modelling conventions, stated once:
* Python integers are unbounded, so every numeric field is `Int`
  (station ids and register indices, which the source only ever compares
  for equality against non-negative ints, are `Nat`).
* Python list indexing `l[i]` accepts `-len l ≤ i < len l`, wrapping
  negative indices to `len l + i`, and raises `IndexError` otherwise.
  This is embedded by `pyNorm` / `pyGet` / `pySet`; a raised
  `IndexError` is modelled by setting the `crash` field of the state to
  `Crash.indexError`, after which every step function is the identity
  (the Python process has died with partial mutations applied).
* The 65536-word memory list is modelled as a total function
  `Nat → Int` over the normalised index, with the very same Python
  index normalisation (`pyNorm 65536`) applied on every access
  (`memRead` / `memWrite`); an out-of-range address crashes exactly
  where Python would raise.
* `deque` fronts are list heads; `deque.append` is `· ++ [x]`.
* Python truthiness tests on counters (`if s.rem_cycles_exec:`) are
  embedded as `≠ 0` (those counters can be negative, which is truthy).
* The BEQ result, a Python `bool`, is stored as `Int` 1/0: the source
  only ever compares it with `== 1`, broadcasts it (where Python would
  coerce `True` to `1` in arithmetic), or overwrites it, so this is
  observationally faithful.
* `is_tutorial_mode` only gates `print`/`input` calls, which have no
  effect on engine state; the embedding models tutorial mode off.
* `station_id_to_index` is a dict built at construction mapping each
  station's unique id to its bank position; the embedding's write-back
  selection carries the bank position of the candidate alongside, which
  agrees with the dict lookup because station ids are assigned
  injectively at construction and stations never move.
-/

namespace Tomasulo

/-- Instruction categories, with the ordinals from `InstructionCategory`
in `instruction.py` (0=LOAD .. 6=NOR). -/
inductive Cat where
  | LOAD | STORE | BEQ | JUMP | ADDITION | MUL | NOR
deriving DecidableEq, Inhabited

/-- `InstructionCategory.value`: the 0-based ordinal of a category. -/
def Cat.idx : Cat → Nat
  | .LOAD => 0
  | .STORE => 1
  | .BEQ => 2
  | .JUMP => 3
  | .ADDITION => 4
  | .MUL => 5
  | .NOR => 6

/-- `ResStationOp` from `instruction.py`. -/
inductive Op where
  | CALL | RET | ADD | ADDI
deriving DecidableEq, Inhabited

/-- One decoded instruction (`Instruction` in `instruction.py`): the
immutable decode fields plus the four timestamp fields the engine sets.
All timestamps start at 0. -/
structure Instruction where
  index : Int
  category : Cat
  op : Option Op
  rd : Nat
  rs : Nat
  rt : Nat
  imm : Int
  issue : Int := 0
  exec_start : Int := 0
  exec_end : Int := 0
  write_back : Int := 0
deriving DecidableEq, Inhabited

/-- One reservation station (`ReservationStation` in
`reservation_station.py`); the human-readable `name` is dropped since the
engine never reads it. -/
structure Station where
  id : Nat
  busy : Bool := false
  op : Option Op := none
  vj : Int := 0
  vk : Int := 0
  qj : Nat := 0
  qk : Nat := 0
  a : Int := 0
  cyclesExec : Int
  cyclesAddr : Int
  remExec : Int := -1
  remAddr : Int := -1
  instIndex : Int := -1
  result : Int := -1
deriving DecidableEq, Inhabited

/-- A speculation snapshot (`SystemStatus` in `tomasulo.py`): the issue
cycle of the control-flow instruction and a copy of the rename table. -/
structure Snap where
  issue : Int
  regStatus : List Nat
deriving DecidableEq, Inhabited

/-- The two fatal runtime faults the embedded core distinguishes:
`emptyRestore` is the `IndexError` from `self.system_status_queue[0]` in
the not-taken branch of `write` (line 436); `indexError` is any other
out-of-range list access the Python code can raise. -/
inductive Crash where
  | emptyRestore | indexError
deriving DecidableEq

/-- Entire engine state (the mutable attributes of class `Tomasulo`). -/
structure State where
  memory : Nat → Int
  registers : List Int
  program : List Instruction
  stations : List (List Station)
  registerStatus : List Nat
  lsq : List Int
  sysQueue : List Snap
  pc : Int
  cycle : Int
  numBeq : Int
  numMispred : Int
  numWritten : Int
  crash : Option Crash := none

/-- Python list-index normalisation for a list of length `n`:
`some` of the real position for `-n ≤ i < n`, `none` (IndexError)
otherwise. -/
def pyNorm (n : Nat) (i : Int) : Option Nat :=
  if 0 ≤ i then (if i < (n : Int) then some i.toNat else none)
  else if -(n : Int) ≤ i then some (i + n).toNat else none

/-- Python `l[i]` (read). -/
def pyGet {α : Type} (l : List α) (i : Int) : Option α :=
  (pyNorm l.length i).bind (fun n => l[n]?)

/-- Python `l[i] = v` (write). -/
def pySet {α : Type} (l : List α) (i : Int) (v : α) : Option (List α) :=
  (pyNorm l.length i).map (fun n => l.set n v)

/-- Read `self.memory[a]` (a 65536-entry Python list). -/
def memRead (m : Nat → Int) (a : Int) : Option Int :=
  (pyNorm 65536 a).map m

/-- Write `self.memory[a] = v`. -/
def memWrite (m : Nat → Int) (a : Int) (v : Int) : Option (Nat → Int) :=
  (pyNorm 65536 a).map (fun n => fun j => if j = n then v else m j)

/-- The instruction record at program index `i`; busy stations only ever
hold indices that were valid `pc` values when they issued, so the
default is never reached on those reads. -/
def instAt (st : State) (i : Int) : Instruction :=
  (pyGet st.program i).getD default

/-- Set the crash flag (a raised `IndexError`). -/
def crashIdx (st : State) : State := { st with crash := some Crash.indexError }

/-- Sequence a possibly-failing Python list access: on `none` the
process dies with `IndexError`, otherwise continue. -/
def orCrash {α : Type} (st : State) (o : Option α) (k : α → State) : State :=
  match o with
  | none => crashIdx st
  | some a => k a

/-- The station at bank position `(i, j)`. -/
def stn (st : State) (i j : Nat) : Station :=
  (st.stations.getD i []).getD j default

/-- Replace the station at bank position `(i, j)`. -/
def putStn (st : State) (i j : Nat) (s : Station) : State :=
  { st with stations := st.stations.set i ((st.stations.getD i []).set j s) }

/-- Apply `f` to the instruction record at (valid) program index `i`
(`self.program[i].field = ...`). -/
def modInst (st : State) (i : Int) (f : Instruction → Instruction) : State :=
  match pyNorm st.program.length i with
  | none => crashIdx st
  | some n => { st with program := st.program.modify f n }

/-- One hardware-configuration row: number of stations of the category,
`cycles_for_exec`, `cycles_for_addr` (the latter is 0 for the non-memory
rows of the default configuration, mirroring `_initialize_hardware`). -/
abbrev HwRow := Nat × Int × Int

/-- The built-in default hardware of `_initialize_hardware`
(LOAD 2×(2,4), STORE 2×(2,4), BEQ 2×1, JUMP 1×1, ADD 4×2, MUL 2×10,
NOR 2×1). -/
def defaultHardware : List HwRow :=
  [(2, 2, 4), (2, 2, 4), (2, 1, 0), (1, 1, 0), (4, 2, 0), (2, 10, 0), (2, 1, 0)]

/-- Fresh station with the given id and latencies (the constructor of
`ReservationStation`). -/
def mkStation (id : Nat) (ce ca : Int) : Station :=
  { id := id, cyclesExec := ce, cyclesAddr := ca }

/-- Build the row of stations of one category, ids `base, base+1, ...`. -/
def mkRow (base : Nat) (n : Nat) (ce ca : Int) : List Station :=
  (List.range n).map (fun j => mkStation (base + j) ce ca)

/-- Build the whole station bank with globally sequential ids starting
at 1, as `_initialize_hardware` does. -/
def mkBank : List HwRow → Nat → List (List Station)
  | [], _ => []
  | (n, ce, ca) :: rest, base => mkRow base n ce ca :: mkBank rest (base + n)

/-- The all-zero initial memory image (no memory file loaded); a loaded
image is any other `Nat → Int`. -/
def zeroMem : Nat → Int := fun _ => 0

/-- A freshly constructed engine (`Tomasulo.__init__` followed by the
optional `initialize_memory`): `prog` is the decoded program the
external parser produced, `hw` the hardware rows, `mem` the initial
memory image and `pc0` the initial PC.  Registers are initialised to
`[0,1,2,3,4,5,6,7]` (the redundant `registers[0] = 0` changes
nothing). -/
def mkState (prog : List Instruction) (hw : List HwRow) (mem : Nat → Int)
    (pc0 : Int) : State :=
  { memory := mem
    registers := [0, 1, 2, 3, 4, 5, 6, 7]
    program := prog
    stations := mkBank hw 1
    registerStatus := List.replicate 8 0
    lsq := []
    sysQueue := []
    pc := pc0
    cycle := 1
    numBeq := 0
    numMispred := 0
    numWritten := 0 }

/-- `Tomasulo.exec_result`: the value written into `station.result` when
execution of a station of instruction-category `c` completes.  The
LOAD/STORE categories have no branch in the source, so the stale
`result` is kept.  Python's `~x` is `-(x+1)` and `&`/`|` on possibly
negative ints are two's-complement, which is what `Int.land`/`Int.lor`
compute. -/
def execResult (c : Cat) (s : Station) : Int :=
  match c with
  | .BEQ => if s.vj = s.vk then 1 else 0
  | .JUMP => match s.op with
    | some .CALL => s.instIndex + 1
    | _ => s.vj
  | .ADDITION => match s.op with
    | some .ADD => s.vj + s.vk
    | _ => s.vj + s.a
  | .MUL => Int.land (s.vj * s.vk) 65535
  | .NOR => -(Int.lor s.vj s.vk + 1)
  | .LOAD => s.result
  | .STORE => s.result

/-- Index of the first non-busy station in a row, if any (the
first-available scan at the top of `Tomasulo.issue`). -/
def firstFree : List Station → Nat → Option Nat
  | [], _ => none
  | s :: rest, j => if s.busy then firstFree rest (j + 1) else some j

/-- Replace the last element of a list by `f` of it (mutating
`deque[-1]` in place). -/
def updLast {α : Type} (f : α → α) : List α → List α
  | [] => []
  | [x] => [f x]
  | x :: y :: rest => x :: updLast f (y :: rest)

/-- One operand read of `Tomasulo.issue` for register `r`: returns the
producer tag to store in `qj`/`qk` and, when the register value is
current (tag 0), the value to store in `vj`/`vk` (`none` leaves the
stale station field untouched, as the Python code does); `none` overall
is a raised `IndexError` (`r` out of the 8-entry tables). -/
def readOp (st : State) (r : Nat) : Option (Nat × Option Int) :=
  match pyGet st.registerStatus (r : Int) with
  | none => none
  | some q =>
    if q ≠ 0 then some (q, none)
    else
      match pyGet st.registers (r : Int) with
      | none => none
      | some v => some (0, some v)

/-- Destination-rename step of `Tomasulo.issue`: when `rd ≠ 0`, write
the claiming station's id into the live rename table — or, when the
speculation stack is non-empty, into the top snapshot's copy. -/
def issueRename (st : State) (rd : Nat) (sid : Nat) : State :=
  if rd ≠ 0 then
    match st.sysQueue with
    | [] =>
      orCrash st (pySet st.registerStatus (rd : Int) sid)
        (fun rs2 => { st with registerStatus := rs2 })
    | _ =>
      let top := st.sysQueue.getLast?.getD default
      orCrash st (pySet top.regStatus (rd : Int) sid) (fun tr2 =>
        { st with sysQueue :=
            updLast (fun sn => { sn with regStatus := tr2 }) st.sysQueue })
  else st

/-- Queue bookkeeping of `Tomasulo.issue`: append the instruction index
to the load/store queue for memory categories, push a speculation
snapshot for control categories (copying the live rename table, or the
top snapshot's copy when one exists), then advance PC. -/
def issueQueues (st : State) (ci : Nat) (pcOld : Int) : State :=
  let st4 :=
    if ci = 0 ∨ ci = 1 then { st with lsq := st.lsq ++ [pcOld] } else st
  let st5 :=
    if ci = 2 ∨ ci = 3 then
      match st4.sysQueue with
      | [] => { st4 with sysQueue := [⟨st4.cycle, st4.registerStatus⟩] }
      | _ =>
        { st4 with sysQueue :=
            st4.sysQueue ++
              [⟨st4.cycle, (st4.sysQueue.getLast?.getD default).regStatus⟩] }
    else st4
  { st5 with pc := st5.pc + 1 }

/-- Filling the claimed station `(ci, j)` for instruction `inst` and
performing the operand reads, the rename, the queue pushes and the PC
advance (everything `Tomasulo.issue` does after finding a free
station), mutating the live station record in the Python statement
order; a raised `IndexError` aborts the remaining effects. -/
def issuePlace (st : State) (inst : Instruction) (ci j : Nat) : State :=
  let s0 := (st.stations.getD ci []).getD j default
  let st1 := modInst st st.pc (fun ins => { ins with issue := st.cycle })
  let s1 : Station :=
    { s0 with
      busy := true
      a := inst.imm
      op := inst.op
      remExec := s0.cyclesExec
      remAddr := s0.cyclesAddr
      instIndex := st.pc }
  let stA := putStn st1 ci j s1
  match readOp stA inst.rs with
  | none => crashIdx stA
  | some (q1, v1) =>
    let s2 : Station := { s1 with qj := q1, vj := v1.getD s1.vj }
    let stB := putStn stA ci j s2
    match readOp stB inst.rt with
    | none => crashIdx stB
    | some (q2, v2) =>
      let s3 : Station := { s2 with qk := q2, vk := v2.getD s2.vk }
      let stC := putStn stB ci j s3
      let st3 := issueRename stC inst.rd s3.id
      if st3.crash.isSome then st3 else issueQueues st3 ci st.pc

/-- `Tomasulo.issue`: try to place `program[pc]` into the first free
station of its category; on failure (structural hazard) do nothing. -/
def issueStep (st : State) : State :=
  orCrash st (pyGet st.program st.pc) fun inst =>
  let ci := inst.category.idx
  match firstFree (st.stations.getD ci []) 0 with
  | none => st
  | some j => issuePlace st inst ci j

/-- The speculation gate of `Tomasulo.execute` (lines 288 and 311): a
busy station is skipped when the speculation queue is non-empty and its
instruction issued after the front snapshot's instruction. -/
def gateSkip (st : State) (s : Station) : Bool :=
  match st.sysQueue with
  | [] => false
  | sn :: _ => decide ((instAt st s.instIndex).issue > sn.issue)

/-- Process one non-memory station (bank position `(i, j)`,
`i ∈ {2..6}`) in the first loop of `Tomasulo.execute`. -/
def execStepA (st : State) (i j : Nat) : State :=
  if st.crash.isSome then st else
  let s := stn st i j
  if ¬ s.busy then st else
  let inst := instAt st s.instIndex
  if ¬ (inst.issue < st.cycle) then st else
  if gateSkip st s then st else
  if s.qj = 0 ∧ s.qk = 0 ∧ inst.issue ≤ st.cycle ∧ s.remExec ≠ 0 then
    let st1 :=
      if s.remExec = s.cyclesExec ∧ ¬ (inst.exec_start > 0) then
        modInst st s.instIndex (fun ins => { ins with exec_start := st.cycle })
      else st
    let r' := s.remExec - 1
    let s' := { s with remExec := r' }
    if r' = 0 then
      let s'' := { s' with result := execResult inst.category s' }
      let st2 := putStn st1 i j s''
      modInst st2 s.instIndex (fun ins => { ins with exec_end := st.cycle })
    else putStn st1 i j s'
  else st

/-- The hazard scan of `Tomasulo.execute` against the STORE row (sets
both `WAW` and `RAW` in the source): some busy store with unfinished
execution, an older instruction, and the same `a` field. -/
def hazardStore (st : State) (issueS : Int) (aS : Int) : Bool :=
  (st.stations.getD 1 []).any fun t =>
    t.busy && t.remExec ≠ 0 && decide ((instAt st t.instIndex).issue < issueS)
      && decide (t.a = aS)

/-- The extra hazard scan for STORE stations against the LOAD row
(sets `WAR` in the source). -/
def hazardLoad (st : State) (issueS : Int) (aS : Int) : Bool :=
  (st.stations.getD 0 []).any fun t =>
    t.busy && t.remExec ≠ 0 && decide ((instAt st t.instIndex).issue < issueS)
      && decide (t.a = aS)

/-- Address-resolution phase of one memory station in the second loop
of `Tomasulo.execute` (`s.rem_cycles_addr` nonzero): requires the base
register value and being at the head of the load/store queue (an empty
queue would raise at `self.load_store_queue[0]`); on the last cycle the
effective address is computed and the memory pre-read performed, and
the shared `queue_pop` flag is set. -/
def execStepBAddr (acc : State × Bool) (i j : Nat) : State × Bool :=
  let st := acc.1
  let s := stn st i j
  if s.qj = 0 then
    match st.lsq.head? with
    | none => (crashIdx st, acc.2)
    | some h =>
      if h = s.instIndex then
        let st1 :=
          if s.remAddr = s.cyclesAddr then
            modInst st s.instIndex (fun ins => { ins with exec_start := st.cycle })
          else st
        let r' := s.remAddr - 1
        let s' := { s with remAddr := r' }
        if r' = 0 then
          let a' := s.vj + s.a
          match memRead st1.memory a' with
          | none => (crashIdx (putStn st1 i j { s' with a := a' }), acc.2)
          | some v => (putStn st1 i j { s' with a := a', result := v }, true)
        else (putStn st1 i j s', acc.2)
      else acc
  else acc

/-- Execution phase of one memory station (`rem_cycles_addr` zero,
`rem_cycles_exec` nonzero): the hazard scans stall it, otherwise it
counts down, and a finishing LOAD re-reads memory. -/
def execStepBExec (acc : State × Bool) (i j : Nat) : State × Bool :=
  let st := acc.1
  let s := stn st i j
  let inst := instAt st s.instIndex
  let waw := hazardStore st inst.issue s.a
  let dec : Bool := if i = 1 then ¬ hazardLoad st inst.issue s.a ∧ ¬ waw else ¬ waw
  if dec then
    let r' := s.remExec - 1
    let s' := { s with remExec := r' }
    let st1 := putStn st i j s'
    if r' = 0 then
      let st2 := modInst st1 s.instIndex (fun ins => { ins with exec_end := st.cycle })
      if i = 0 then
        match memRead st2.memory s.a with
        | none => (crashIdx st2, acc.2)
        | some v => (putStn st2 i j { s' with result := v }, acc.2)
      else (st2, acc.2)
    else (st1, acc.2)
  else acc

/-- Process one memory station (bank position `(i, j)`, `i ∈ {0, 1}`)
in the second loop of `Tomasulo.execute`; the Bool is the shared
`queue_pop` flag. -/
def execStepB (acc : State × Bool) (i j : Nat) : State × Bool :=
  let st := acc.1
  if st.crash.isSome then acc else
  let s := stn st i j
  if ¬ s.busy then acc else
  let inst := instAt st s.instIndex
  if ¬ (inst.issue < st.cycle) then acc else
  if gateSkip st s then acc else
  if s.remAddr ≠ 0 then execStepBAddr acc i j
  else if s.remExec ≠ 0 then execStepBExec acc i j
  else acc

/-- Fold a per-station action over the given category rows in order. -/
def foldBank {β : Type} (st : State) (cats : List Nat) (init : β)
    (f : β → Nat → Nat → β) : β :=
  cats.foldl
    (fun b i =>
      (List.range (st.stations.getD i []).length).foldl (fun b2 j => f b2 i j) b)
    init

/-- `Tomasulo.execute`: non-memory stations (categories 2..6), then
memory stations (categories 0 and 1) with the shared `queue_pop` flag,
then one `popleft` of the load/store queue if the flag was set. -/
def executeStep (st : State) : State :=
  if st.crash.isSome then st else
  let stA := foldBank st [2, 3, 4, 5, 6] st (fun b i j => execStepA b i j)
  let res := foldBank stA [0, 1] (stA, false) (fun b i j => execStepB b i j)
  let stB := res.1
  if stB.crash.isSome then stB
  else if res.2 then { stB with lsq := stB.lsq.tail } else stB

/-- Accumulator of the write-back selection scan: candidate non-STORE
bank position (`write_station_id` ≠ -1 in the source), candidate STORE
bank position (`write_store_station_id`), and the single shared
`min_issue_time` (initially `2**31 - 1`; the declared
`min_store_issue_time` is never read by the source, so it is not
modelled). -/
structure SelAcc where
  ws : Option (Nat × Nat)
  wss : Option (Nat × Nat)
  minIssue : Int
deriving DecidableEq

/-- One step of the selection scan of `Tomasulo.write` over the station
at bank position `(i, j)`. -/
def selStep (st : State) (acc : SelAcc) (i j : Nat) : SelAcc :=
  let s := stn st i j
  if s.busy ∧ s.remExec = 0 ∧ (instAt st s.instIndex).exec_end < st.cycle then
    if i = 1 ∧ s.qk ≠ 0 then acc
    else if (instAt st s.instIndex).issue < acc.minIssue then
      if i = 1 then { acc with wss := some (i, j), minIssue := (instAt st s.instIndex).issue }
      else { acc with ws := some (i, j), minIssue := (instAt st s.instIndex).issue }
    else acc
  else acc

/-- The full write-back selection scan (categories 0..6 in order). -/
def writeSelect (st : State) : SelAcc :=
  foldBank st [0, 1, 2, 3, 4, 5, 6] ⟨none, none, 2 ^ 31 - 1⟩
    (fun acc i j => selStep st acc i j)

/-- One station of the flush pass of
`Tomasulo._flush_instructions_after_jump`: free it if its instruction
issued after the flushing instruction, sweeping its id out of the live
rename table. -/
def flushStn (b : State) (wIssue : Int) (i j : Nat) : State :=
  let s := stn b i j
  if s.busy ∧ (instAt b s.instIndex).issue > wIssue then
    let b1 := putStn b i j { s with busy := false }
    { b1 with registerStatus :=
        b1.registerStatus.map (fun q => if q = s.id then 0 else q) }
  else b

/-- `Tomasulo._flush_instructions_after_jump`, station part (see
`flushStn`): free every busy station whose instruction issued after
the flushing instruction, sweeping its id out of the rename table. -/
def flushStations (st : State) (wIssue : Int) : State :=
  foldBank st [0, 1, 2, 3, 4, 5, 6] st fun b i j => flushStn b wIssue i j

/-- `Tomasulo._flush_instructions_after_jump` in full: the station pass,
then popping load/store-queue entries from the front while the front's
instruction issued after `W`'s instruction (Python's `while` +
`popleft`, i.e. `dropWhile`). -/
def flushAfterJump (st : State) (w : Station) : State :=
  let wIssue := (instAt st w.instIndex).issue
  let st1 := flushStations st wIssue
  { st1 with lsq :=
      st1.lsq.dropWhile (fun h => decide ((instAt st1 h).issue > wIssue)) }

/-- `Tomasulo._broadcast_result`: hand `w.result` to every busy station
waiting on producer id `wid`, recording `exec_start := cycle` when the
other operand is (now) present. -/
def broadcastStn (st : State) (w : Station) (wid : Nat) (b : State)
    (i j : Nat) : State :=
    let s := stn b i j
    if ¬ s.busy then b else
    let step1 : Station × State :=
      if s.qj = wid ∧ wid ≠ 0 then
        let s1 := { s with qj := 0, vj := w.result }
        if s1.qk = 0 then
          (s1, modInst b s.instIndex (fun ins => { ins with exec_start := st.cycle }))
        else (s1, b)
      else (s, b)
    let s1 := step1.1
    let b1 := step1.2
    let step2 : Station × State :=
      if s1.qk = wid ∧ wid ≠ 0 then
        let s2 : Station := { s1 with qk := 0, vk := w.result }
        if s2.qj = 0 then
          (s2, modInst b1 s.instIndex (fun ins => { ins with exec_start := st.cycle }))
        else (s2, b1)
      else (s1, b1)
    putStn step2.2 i j step2.1

/-- `Tomasulo._broadcast_result` (see `broadcastStn`): hand `w.result`
to every busy station waiting on producer id `wid`. -/
def broadcastResult (st : State) (w : Station) (wid : Nat) : State :=
  foldBank st [0, 1, 2, 3, 4, 5, 6] st fun b i j => broadcastStn st w wid b i j

/-- Retire the selected STORE station, if any: free it, stamp
`write_back`, and perform `memory[W.a] = W.vk` (which can raise). -/
def retireStore (st : State) : Option (Nat × Nat) → State
  | none => st
  | some (i, j) =>
    let s := stn st i j
    let st1 := { st with numWritten := st.numWritten + 1 }
    let st2 := putStn st1 i j { s with busy := false }
    let st3 := modInst st2 s.instIndex (fun ins => { ins with write_back := st.cycle })
    orCrash st3 (memWrite st3.memory s.a s.vk) fun m' => { st3 with memory := m' }

/-- JUMP retirement actions of `Tomasulo.write` (given the state after
the freeing and timestamping of the retired station `s`): PC redirect
(CALL also writes the displacement into R1), clearing of the entire
speculation stack, and the flush pass. -/
def retireJump (st : State) (s : Station) : State :=
  let stJ :=
    if s.op = some Op.CALL then
      { st with registers := st.registers.set 1 s.a,
                pc := s.a + (instAt st s.instIndex).index + 1 }
    else { st with pc := s.vj }
  flushAfterJump { stJ with sysQueue := [] } s

/-- BEQ retirement actions of `Tomasulo.write`: count the branch; when
taken, redirect PC, count the misprediction, clear the speculation
stack and flush; when not taken, restore the rename table from the
front snapshot (`system_status_queue[0]`, an `IndexError` on an empty
deque) and pop it. -/
def retireBeq (st : State) (s : Station) : State :=
  let stq := { st with numBeq := st.numBeq + 1 }
  if s.result = 1 then
    let stT :=
      { stq with pc := 1 + (instAt stq s.instIndex).index + s.a,
                 numMispred := stq.numMispred + 1 }
    flushAfterJump { stT with sysQueue := [] } s
  else
    match stq.sysQueue with
    | [] => { stq with crash := some Crash.emptyRestore }
    | sn :: rest =>
      { stq with registerStatus := sn.regStatus, sysQueue := rest }

/-- The register write-back loop of `Tomasulo.write`: every register
(except R0) whose rename entry equals the retiring station's id
receives the result, and the entry is cleared. -/
def regWriteLoop (st : State) (sid : Nat) (res : Int) : State :=
  (List.range 8).foldl
    (fun b k =>
      if b.registerStatus.getD k 0 = sid ∧ k ≠ 0 then
        { b with registers := b.registers.set k res,
                 registerStatus := b.registerStatus.set k 0 }
      else b)
    st

/-- Retire the selected non-STORE station, if any: free it, stamp
`write_back`, then run the JUMP / BEQ control actions and, for every
category other than STORE and BEQ, the register write-back loop and the
result broadcast. -/
def retireNonStore (st : State) : Option (Nat × Nat) → State
  | none => st
  | some (i, j) =>
    let s := stn st i j
    let st1 := { st with numWritten := st.numWritten + 1 }
    let st2 := putStn st1 i j { s with busy := false }
    let st3 := modInst st2 s.instIndex (fun ins => { ins with write_back := st.cycle })
    let st4 :=
      if i = 3 then retireJump st3 s
      else if i = 2 then retireBeq st3 s
      else st3
    if st4.crash.isSome then st4
    else if i ≠ 1 ∧ i ≠ 2 then
      broadcastResult (regWriteLoop st4 s.id s.result) s s.id
    else st4

/-- `Tomasulo.write`: run the selection scan, then retire the selected
STORE (if any) and then the selected non-STORE (if any). -/
def writeStep (st : State) : State :=
  if st.crash.isSome then st else
  let sel := writeSelect st
  let st1 := retireStore st sel.wss
  if st1.crash.isSome then st1 else retireNonStore st1 sel.ws

/-- `Tomasulo.next_cycle` (tutorial printing omitted): issue when
`pc < len(program)`, execute, write back, and advance the cycle counter;
a raised exception aborts the rest of the cycle and freezes the
state. -/
def nextCycle (st : State) : State :=
  if st.crash.isSome then st else
  let st1 := if st.pc < (st.program.length : Int) then issueStep st else st
  if st1.crash.isSome then st1 else
  let st2 := executeStep st1
  if st2.crash.isSome then st2 else
  let st3 := writeStep st2
  if st3.crash.isSome then st3 else { st3 with cycle := st3.cycle + 1 }

/-- All stations idle (the `all_stations_empty` recomputation at the
bottom of `Tomasulo.run`). -/
def noBusy (st : State) : Bool :=
  st.stations.all (fun row => row.all (fun s => ¬ s.busy))

/-- The loop of `Tomasulo.run`, fuelled: `allEmpty` starts out `false`
(so the first cycle always runs) and is recomputed after every
cycle. -/
def runGo : Nat → State → Bool → State
  | 0, st, _ => st
  | n + 1, st, allEmpty =>
    if st.pc < (st.program.length : Int) ∨ allEmpty = false then
      let st' := nextCycle st
      runGo n st' (noBusy st')
    else st

/-- `Tomasulo.run` up to `fuel` cycles (the source's `while` loop has no
bound; every theorem about a finished run checks that the loop
condition is already false at the result). -/
def run (fuel : Nat) (st : State) : State := runGo fuel st false

/-- The loop condition of `Tomasulo.run`: `false` means the run is
complete (PC past the program and every station idle). -/
def loopCond (st : State) (allEmpty : Bool) : Bool :=
  decide (st.pc < (st.program.length : Int)) || !allEmpty

/-!  Decoded-instruction constructors, mirroring exactly what
`Instruction.parse_instruction` produces for each mnemonic (register
fields not mentioned by a form stay 0, as in the Python constructor). -/

/-- `ADDI Rd, Rs, imm` at program index `idx`. -/
def iADDI (rd rs : Nat) (imm : Int) (idx : Int) : Instruction :=
  { index := idx, category := .ADDITION, op := some .ADDI,
    rd := rd, rs := rs, rt := 0, imm := imm }

/-- `ADD Rd, Rs, Rt`. -/
def iADD (rd rs rt : Nat) (idx : Int) : Instruction :=
  { index := idx, category := .ADDITION, op := some .ADD,
    rd := rd, rs := rs, rt := rt, imm := 0 }

/-- `MUL Rd, Rs, Rt`. -/
def iMUL (rd rs rt : Nat) (idx : Int) : Instruction :=
  { index := idx, category := .MUL, op := none,
    rd := rd, rs := rs, rt := rt, imm := 0 }

/-- `BEQ Rs, Rt, imm`. -/
def iBEQ (rs rt : Nat) (imm : Int) (idx : Int) : Instruction :=
  { index := idx, category := .BEQ, op := none,
    rd := 0, rs := rs, rt := rt, imm := imm }

/-- `LOAD Rd, imm(Rs)`. -/
def iLOAD (rd rs : Nat) (imm : Int) (idx : Int) : Instruction :=
  { index := idx, category := .LOAD, op := none,
    rd := rd, rs := rs, rt := 0, imm := imm }

/-- `STORE Rt, imm(Rs)`. -/
def iSTORE (rt rs : Nat) (imm : Int) (idx : Int) : Instruction :=
  { index := idx, category := .STORE, op := none,
    rd := 0, rs := rs, rt := rt, imm := imm }

/-- `CALL imm` (sets `rd = 1` internally). -/
def iCALL (imm : Int) (idx : Int) : Instruction :=
  { index := idx, category := .JUMP, op := some .CALL,
    rd := 1, rs := 0, rt := 0, imm := imm }

/-- `RET` (sets `rs = 1` internally). -/
def iRET (idx : Int) : Instruction :=
  { index := idx, category := .JUMP, op := some .RET,
    rd := 0, rs := 1, rt := 0, imm := 0 }

/-!  Concrete inputs used by the individual claims. -/

/-- Everything the front panel observes of a finished run: final
registers, memory, the three statistics counters, the final cycle
counter established by the run, and the per-instruction timestamp
table. -/
def observe (st : State) :
    List Int × (Nat → Int) × Int × Int × Int × Int ×
      List (Int × Int × Int × Int) :=
  (st.registers, st.memory, st.numBeq, st.numMispred, st.numWritten, st.cycle,
    st.program.map fun i => (i.issue, i.exec_start, i.exec_end, i.write_back))

/-- C1 input: a write-back cycle (cycle 7) in which a LOAD that issued
at cycle 5, a STORE that issued at cycle 2 and an ADDI that issued at
cycle 3 have all finished executing (`exec_end` 5 < 7) and sit ready in
their stations. -/
def c1Prog : List Instruction :=
  [{ iSTORE 1 0 0 0 with issue := 2, exec_start := 3, exec_end := 5 },
   { iADDI 5 0 1 1 with issue := 3, exec_start := 4, exec_end := 5 },
   { iLOAD 6 0 1 2 with issue := 5, exec_start := 5, exec_end := 5 }]

/-- C1 input state (see `c1Prog`). -/
def c1St : State :=
  let b0 := { mkState c1Prog defaultHardware zeroMem 3 with cycle := 7 }
  let b1 := putStn b0 0 0
    { stn b0 0 0 with busy := true, remExec := 0, remAddr := 0, instIndex := 2, a := 1 }
  let b2 := putStn b1 1 0
    { stn b1 1 0 with busy := true, remExec := 0, remAddr := 0, instIndex := 0, vk := 1 }
  putStn b2 4 0
    { stn b2 4 0 with busy := true, remExec := 0, instIndex := 1, result := 1 }

/-- C2 input: a control-flow station `c2W` (a BEQ that issued at cycle
3) forces a flush while the load/store queue holds an older unresolved
LOAD (instruction 0, issued at cycle 2) in front of a speculative LOAD
(instruction 1, issued at cycle 5). -/
def c2Prog : List Instruction :=
  [{ iLOAD 4 3 0 0 with issue := 2 },
   { iLOAD 5 0 1 1 with issue := 5 },
   { iBEQ 0 0 1 2 with issue := 3, exec_start := 4, exec_end := 4, write_back := 6 }]

/-- C2 input state (see `c2Prog`): both LOAD stations are busy and
unresolved, the queue is `[0, 1]`. -/
def c2St : State :=
  let b0 := { mkState c2Prog defaultHardware zeroMem 3 with
              cycle := 6, lsq := [0, 1] }
  let b1 := putStn b0 0 0
    { stn b0 0 0 with busy := true, remExec := 2, remAddr := 4, instIndex := 0, qj := 9 }
  putStn b1 0 1
    { stn b1 0 1 with busy := true, remExec := 2, remAddr := 4, instIndex := 1 }

/-- C2 flushing station: the BEQ of `c2Prog` (instruction 2). -/
def c2W : Station :=
  { mkStation 5 1 0 with busy := true, remExec := 0, instIndex := 2, result := 1 }

/-- C3 / C8 input program: `MUL R2,R1,R1; STORE R2,0(R0)` — the STORE's
value operand arrives by broadcast only after the STORE has already
finished executing. -/
def c3Prog : List Instruction := [iMUL 2 1 1 0, iSTORE 2 0 0 1]

/-- C3 input engine. -/
def c3St : State := mkState c3Prog defaultHardware zeroMem 0

/-- C4 input program — scenario S3 of the specification:
`ADDI R1,R0,1; BEQ R1,R1,2; ADDI R2,R0,99; ADDI R3,R0,77;
ADDI R4,R0,5`. -/
def c4Prog : List Instruction :=
  [iADDI 1 0 1 0, iBEQ 1 1 2 1, iADDI 2 0 99 2, iADDI 3 0 77 3, iADDI 4 0 5 4]

/-- C4 input engine (default hardware, zero memory image, PC 0). -/
def c4St : State := mkState c4Prog defaultHardware zeroMem 0

/-- C5 input program: `ADDI R3,R0,7; RET; CALL -3`, started at PC 2.
The CALL (instruction index 2, displacement -3) redirects to the ADDI,
and the RET then returns to the return address `R1 = 3`, past the
program, so the run terminates.  The CALL's station result
(`inst_index + 1 = 3`), its displacement (`a = -3`) and the initial
value of R1 (`1`) are pairwise distinct, so the final content of R1
identifies which write survived the CALL's write-back cycle. -/
def c5Prog : List Instruction := [iADDI 3 0 7 0, iRET 1, iCALL (-3) 2]

/-- C5 input engine (default hardware, zero memory, initial PC 2). -/
def c5St : State := mkState c5Prog defaultHardware zeroMem 2

/-- C5 witness station: the retiring CALL of `c5Prog` (instruction
index 2, displacement -3, completed execution so `result =
inst_index + 1 = 3`). -/
def c5CallStn : Station :=
  { mkStation 9 1 0 with
    busy := true
    op := some Op.CALL
    a := -3
    remExec := 0
    instIndex := 2
    result := 3 }

/-- C6 counterexample station: an ADD with operand values 40000 and
40000, whose sum 80000 does not fit in 16 bits. -/
def c6St : Station :=
  { mkStation 8 2 0 with
    busy := true
    op := some Op.ADD
    vj := 40000
    vk := 40000
    remExec := 0
    instIndex := 0 }

/-- C10 counterexample hardware: the default configuration except that
the single JUMP station has `cycles_for_exec = 0` (the configuration
loader accepts any integers). -/
def c10Hw : List HwRow :=
  [(2, 2, 4), (2, 2, 4), (2, 1, 0), (1, 0, 0), (4, 2, 0), (2, 10, 0), (2, 1, 0)]

/-- C10 counterexample program: `MUL R2,R1,R1; BEQ R2,R3,1; CALL 0`.
The CALL becomes write-eligible the cycle it issues (latency 0), retires
while the older BEQ is still waiting for the MUL, clears the entire
speculation stack, and its flush spares the older BEQ — which later
executes ungated, compares 1 against 3, and retires not-taken into an
empty stack. -/
def c10Prog : List Instruction := [iMUL 2 1 1 0, iBEQ 2 3 1 1, iCALL 0 2]

/-- C10 counterexample engine. -/
def c10St : State := mkState c10Prog c10Hw zeroMem 0

/-!  Definitions for the C10 safety proof: the inductive invariant that
protects the not-taken restore.  `ctrlIdx` are the two control-flow
bank rows (BEQ and JUMP), the only stations that push speculation
snapshots at issue and touch the speculation stack at retirement. -/

/-- Bank rows holding control-flow stations (2 = BEQ, 3 = JUMP). -/
def ctrlIdx (i : Nat) : Prop := i = 2 ∨ i = 3

instance (i : Nat) : Decidable (ctrlIdx i) := by
  unfold ctrlIdx
  infer_instance

/-- The issue cycle currently recorded for a station's instruction
(stations share the mutable instruction record by index). -/
def issOf (st : State) (s : Station) : Int := (instAt st s.instIndex).issue

/-- The issue cycles of the speculation-stack snapshots, front first. -/
def qIss (st : State) : List Int := st.sysQueue.map Snap.issue

/-- The inductive invariant of the C10 safety proof, with all
cycle-valued bounds taken against `c` (`c = st.cycle` between cycles
and `c = st.cycle + 1` inside a cycle, after Issue has stamped the
current cycle): every control-flow station's issue value appears on the
speculation stack, the stack is strictly ordered, busy control stations
have pairwise distinct issue values and in-range, not-yet-reissued
instruction indices, and any control station that has finished
executing owns the front snapshot. -/
structure InvB (st : State) (c : Int) : Prop where
  cyc : 1 ≤ st.cycle
  latC : ∀ i j, ctrlIdx i → j < (st.stations.getD i []).length →
    1 ≤ (stn st i j).cyclesExec
  busyB : ∀ i j, (stn st i j).busy = true →
    0 < issOf st (stn st i j) ∧ issOf st (stn st i j) < c
  ctrlG : ∀ i j, ctrlIdx i → (stn st i j).busy = true →
    0 ≤ (stn st i j).instIndex ∧ (stn st i j).instIndex < st.pc ∧
    (stn st i j).instIndex < (st.program.length : Int)
  snapB : ∀ t ∈ qIss st, 0 < t ∧ t < c
  sorted : List.Chain' (· < ·) (qIss st)
  mem : ∀ i j, ctrlIdx i → (stn st i j).busy = true →
    issOf st (stn st i j) ∈ qIss st
  dist : ∀ i j i' j', ctrlIdx i → ctrlIdx i' → (stn st i j).busy = true →
    (stn st i' j').busy = true →
    issOf st (stn st i j) = issOf st (stn st i' j') → i = i' ∧ j = j'
  hd : ∀ i j, ctrlIdx i → (stn st i j).busy = true →
    (stn st i j).remExec = 0 → (qIss st).head? = some (issOf st (stn st i j))

/-- The hardware restriction of the amended claim C10: every BEQ and
JUMP station executes for at least one cycle (true of the default
configuration). -/
def ctrlLatPos (st : State) : Prop :=
  ∀ i j, ctrlIdx i → j < (st.stations.getD i []).length →
    1 ≤ (stn st i j).cyclesExec

/-!  Claim theorems. -/

/-- Claim C1 (code bug, evaluation at the failing input): at cycle 7 of
`c1St` the eligible stations are a STORE issued at cycle 2, an ADDI
issued at cycle 3 and a LOAD issued at cycle 5; the selection scan picks
the STORE at (1,0) and — because the two groups share the single
`min_issue_time` — the LOAD at (0,0), although the ADDI is the eligible
non-STORE station with the smallest issue cycle.  (The declared
`min_store_issue_time` in `Tomasulo.write` is never read.) -/
theorem C1_shared_min_selection :
    writeSelect c1St = ⟨some (0, 0), some (1, 0), 2⟩ ∧
    (stn c1St 4 0).busy = true ∧ (stn c1St 4 0).remExec = 0 ∧
    (instAt c1St (stn c1St 4 0).instIndex).exec_end < c1St.cycle ∧
    (instAt c1St (stn c1St 4 0).instIndex).issue = 3 ∧
    (instAt c1St (stn c1St 0 0).instIndex).issue = 5 := by decide

/-- Claim C2 (code bug, evaluation at the failing input): flushing after
the BEQ `c2W` (issue cycle 3) frees the speculative LOAD station at
(0,1) — its instruction issued at cycle 5 — but leaves the load/store
queue at `[0, 1]`: the flush loop only pops from the front, and the
front entry (instruction 0, issued at cycle 2, older than the branch)
stops it, so the queue entry of the flushed instruction 1 survives and
the queue no longer matches the busy unresolved memory stations. -/
theorem C2_flush_misses_young_queue_entries :
    (flushAfterJump c2St c2W).lsq = [0, 1] ∧
    (stn (flushAfterJump c2St c2W) 0 1).busy = false ∧
    (instAt c2St 1).issue = 5 ∧ (instAt c2St c2W.instIndex).issue = 3 := by decide

set_option maxRecDepth 40000 in
/-- Claim C3 (code bug, evaluation at the failing input): running
`MUL R2,R1,R1; STORE R2,0(R0)` to completion under the default hardware
retires the STORE with `issue = 2`, `exec_start = 12`, `exec_end = 8`
and `write_back = 13`: the broadcast of the MUL result at cycle 12
overwrites the STORE's `exec_start` after its execution already ended at
cycle 8, violating `exec_start ≤ exec_end`. -/
theorem C3_store_exec_start_exceeds_exec_end :
    (instAt (run 30 c3St) 1).issue = 2 ∧
    (instAt (run 30 c3St) 1).exec_start = 12 ∧
    (instAt (run 30 c3St) 1).exec_end = 8 ∧
    (instAt (run 30 c3St) 1).write_back = 13 ∧
    loopCond (run 30 c3St) (noBusy (run 30 c3St)) = false ∧
    (run 30 c3St).crash = none := by decide

set_option maxRecDepth 40000 in
/-- Claim C4, counterexample: the S3 run does not end with
`R2 == 0 ∧ R3 == 0` — the two flushed ADDIs never write their
destinations, which therefore keep their initial register-file values
2 and 3. -/
theorem C4_counterexample :
    ¬ ((run 30 c4St).registers.getD 2 0 = 0 ∧
       (run 30 c4St).registers.getD 3 0 = 0) := by decide

set_option maxRecDepth 40000 in
/-- Claim C4 as amended: the S3 run (default hardware, PC 0) completes
with `R2 == 2`, `R3 == 3` (their initial register-file values, the
flushed ADDIs never retire), `R4 == 5`, exactly one misprediction and
exactly one counted BEQ. -/
theorem C4_amended_run :
    (run 30 c4St).registers = [0, 1, 2, 3, 5, 5, 6, 7] ∧
    (run 30 c4St).numMispred = 1 ∧ (run 30 c4St).numBeq = 1 ∧
    loopCond (run 30 c4St) (noBusy (run 30 c4St)) = false ∧
    (run 30 c4St).crash = none := by decide

set_option maxRecDepth 40000 in
/-- Claim C5, counterexample: in the `c5St` run the CALL (instruction 2,
displacement `a = -3`) retires at cycle 3, and at the end of that
write-back cycle `registers[1] = 3` — the station result
`inst_index + 1`, written by the register-update loop after the direct
`registers[1] := a` write — not the displacement `-3` the claim
asserts. -/
theorem C5_counterexample :
    (instAt (nextCycle^[3] c5St) 2).write_back = 3 ∧
    (instAt (nextCycle^[3] c5St) 2).imm = -3 ∧
    (nextCycle^[3] c5St).registers.getD 1 0 = 3 ∧
    ¬ (nextCycle^[3] c5St).registers.getD 1 0 = -3 := by decide

/-- Claim C6, counterexample: an ADD station with `vj = vk = 40000`
completes with `result = 80000`, which is not `(vj + vk) mod 2^16 =
14464` — `exec_result` performs no 16-bit reduction for ADD. -/
theorem C6_counterexample :
    execResult Cat.ADDITION c6St = 80000 ∧
    ¬ execResult Cat.ADDITION c6St = (c6St.vj + c6St.vk) % 2 ^ 16 := by decide

/-- Claim C6 as amended: for every ADDITION/ADD station the computed
result is exactly `vj + vk`, with no modular reduction (Python ints are
unbounded and `exec_result` only masks MUL). -/
theorem C6_add_exact (s : Station) (h : s.op = some Op.ADD) :
    execResult Cat.ADDITION s = s.vj + s.vk := by
  simp [execResult, h]

/-- Witness for `C6_add_exact` at the concrete station `c6St`. -/
theorem C6_add_exact_witness :
    c6St.op = some Op.ADD ∧ execResult Cat.ADDITION c6St = c6St.vj + c6St.vk :=
  ⟨by decide, C6_add_exact c6St (by decide)⟩

/-- Claim C7, counterexample: the effective address `-1` lies outside
`[0, 65535]`, yet the address-resolution memory read does not fail — it
wraps to `memory[65535]` (Python negative indexing) and resolution
proceeds. -/
theorem C7_counterexample :
    (-1 : Int) < 0 ∧ memRead zeroMem (-1) = some 0 := by decide

/-- Claim C7 as amended: the execute-phase memory access `memRead` is
fatal exactly for effective addresses outside `[-65536, 65535]`;
addresses in `[0, 65535]` read the addressed cell, and addresses in
`[-65536, -1]` silently alias to cell `address + 65536`. -/
theorem C7_memRead_range (m : Nat → Int) (a : Int) :
    (memRead m a = none ↔ a < -65536 ∨ 65536 ≤ a) ∧
    (0 ≤ a → a < 65536 → memRead m a = some (m a.toNat)) ∧
    (-65536 ≤ a → a < 0 → memRead m a = some (m (a + 65536).toNat)) := by
  unfold memRead pyNorm
  split_ifs with h1 h2 h3 <;> simp <;> omega

/-- Witness for `C7_memRead_range` at `m = zeroMem`, `a = 5`. -/
theorem C7_memRead_range_witness :
    (0 : Int) ≤ 5 ∧ (5 : Int) < 65536 ∧
    memRead zeroMem 5 = some (zeroMem (5 : Int).toNat) :=
  ⟨by decide, by decide, (C7_memRead_range zeroMem 5).2.1 (by decide) (by decide)⟩

/-- Claim C8 (confirmed): for every fixed input — decoded program,
hardware rows, initial memory image, initial PC — and any cycle budget,
two runs on freshly constructed engines observe identically: same final
registers, memory, statistics and per-instruction timestamps.  The
embedded engine is a pure function of its inputs (the source's only
impurity with tutorial mode off is printing), so the two constructions
are definitionally equal. -/
theorem C8_deterministic (prog : List Instruction) (hw : List HwRow)
    (mem : Nat → Int) (pc0 : Int) (fuel : Nat) :
    observe (run fuel (mkState prog hw mem pc0)) =
      observe (run fuel (mkState prog hw mem pc0)) := rfl

/-- Claim C9 (confirmed): immediately after construction, whatever the
program, hardware, memory image and initial PC, the register file is
`[0, 1, 2, 3, 4, 5, 6, 7]` — `registers[i] = i` for every `i`, so
R1..R7 are nonzero before the program writes them. -/
theorem C9_initial_registers (prog : List Instruction) (hw : List HwRow)
    (mem : Nat → Int) (pc0 : Int) :
    (mkState prog hw mem pc0).registers = [0, 1, 2, 3, 4, 5, 6, 7] := rfl

set_option maxRecDepth 40000 in
/-- Claim C10, counterexample: with a JUMP station of
`cycles_for_exec = 0` (a hardware file the loader accepts), the run of
`MUL R2,R1,R1; BEQ R2,R3,1; CALL 0` reaches, at cycle 14, a write-back
in which a BEQ station is selected with a not-taken result while the
speculation stack is empty: the CALL retired at cycle 3 without ever
executing, cleared the whole stack, and its flush spared the older
still-busy BEQ, which then executed ungated and retired not-taken into
the empty stack — the restore reads `system_status_queue[0]` of an
empty deque. -/
theorem C10_counterexample :
    (stn c10St 3 0).cyclesExec = 0 ∧
    (nextCycle^[14] c10St).crash = some Crash.emptyRestore := by decide

/-!  Helper lemmas for the C10 safety proof: frame properties of the
state-mutation primitives. -/

theorem getD_set_ne {α : Type} (l : List α) (i j : Nat) (a d : α)
    (h : i ≠ j) : (l.set i a).getD j d = l.getD j d := by
  simp [List.getD_eq_getElem?_getD, List.getElem?_set_ne h]

theorem getD_set_self {α : Type} (l : List α) (i : Nat) (a d : α) :
    (l.set i a).getD i d = if i < l.length then a else d := by
  by_cases h : i < l.length
  · simp [List.getD_eq_getElem?_getD, List.getElem?_set_self, h]
  · simp [List.getD_eq_getElem?_getD, List.getElem?_eq_none (l := l.set i a),
      List.length_set, Nat.le_of_not_lt h, h]

theorem stn_putStn_ne (st : State) (i j i' j' : Nat) (s : Station)
    (h : ¬ (i = i' ∧ j = j')) : stn (putStn st i j s) i' j' = stn st i' j' := by
  unfold stn putStn
  by_cases hi : i = i'
  · subst hi
    have hj : j ≠ j' := fun hj => h ⟨rfl, hj⟩
    by_cases hlen : i < st.stations.length
    · simp only [getD_set_self, hlen, if_pos]
      exact getD_set_ne _ _ _ _ _ hj
    · rw [List.set_eq_of_length_le (Nat.le_of_not_lt hlen)]
  · simp only [List.getD_eq_getElem?_getD, List.getElem?_set_ne hi]

theorem stn_putStn_self (st : State) (i j : Nat) (s : Station)
    (hi : i < st.stations.length) (hj : j < (st.stations.getD i []).length) :
    stn (putStn st i j s) i j = s := by
  unfold stn putStn
  simp only [List.getD_eq_getElem?_getD] at hj ⊢
  rw [List.getElem?_set_self hi, Option.getD_some,
    List.getElem?_set_self hj, Option.getD_some]

theorem foldl_pres {α β : Type} {P : β → Prop} (f : β → α → β) (l : List α)
    (b : β) (hb : P b) (h : ∀ b a, P b → P (f b a)) : P (l.foldl f b) := by
  induction l generalizing b with
  | nil => exact hb
  | cons x xs ih => exact ih (f b x) (h b x hb)

theorem foldBank_pres {β : Type} {P : β → Prop} (st : State) (cats : List Nat)
    (init : β) (f : β → Nat → Nat → β) (hinit : P init)
    (h : ∀ b i j, P b → P (f b i j)) : P (foldBank st cats init f) := by
  unfold foldBank
  refine foldl_pres _ _ _ hinit (fun b i hb => ?_)
  exact foldl_pres _ _ _ hb (fun b2 j h2 => h b2 i j h2)

/-- Relation between consecutive intermediate states of one cycle that
lets every `InvB` component except `hd` be transported: the speculation
stack, PC, cycle, program shape and all issue stamps are unchanged, no
station becomes busy, and the identity-like station fields are
unchanged. -/
structure StepOk (b b' : State) : Prop where
  sq : b'.sysQueue = b.sysQueue
  pc : b'.pc = b.pc
  cyc : b'.cycle = b.cycle
  plen : b'.program.length = b.program.length
  iss : ∀ k, (instAt b' k).issue = (instAt b k).issue
  rows : ∀ i, (b'.stations.getD i []).length = (b.stations.getD i []).length
  busy : ∀ i j, (stn b' i j).busy = true → (stn b i j).busy = true
  fields : ∀ i j, (stn b' i j).instIndex = (stn b i j).instIndex ∧
    (stn b' i j).cyclesExec = (stn b i j).cyclesExec

theorem StepOk.refl (b : State) : StepOk b b :=
  ⟨rfl, rfl, rfl, rfl, fun _ => rfl, fun _ => rfl, fun _ _ h => h,
   fun _ _ => ⟨rfl, rfl⟩⟩

theorem StepOk.trans {a b c : State} (h1 : StepOk a b) (h2 : StepOk b c) :
    StepOk a c := by
  refine ⟨h2.sq.trans h1.sq, h2.pc.trans h1.pc, h2.cyc.trans h1.cyc,
    h2.plen.trans h1.plen, fun k => (h2.iss k).trans (h1.iss k),
    fun i => (h2.rows i).trans (h1.rows i),
    fun i j h => h1.busy i j (h2.busy i j h),
    fun i j => ⟨((h2.fields i j).1).trans ((h1.fields i j).1),
      ((h2.fields i j).2).trans ((h1.fields i j).2)⟩⟩

theorem issOf_stepOk {b b' : State} (h : StepOk b b') (i j : Nat) :
    issOf b' (stn b' i j) = issOf b (stn b i j) := by
  unfold issOf
  rw [(h.fields i j).1, h.iss]

theorem qIss_stepOk {b b' : State} (h : StepOk b b') : qIss b' = qIss b := by
  unfold qIss
  rw [h.sq]

/-- Transport of the invariant along `StepOk`, given the `hd` component
for the new state. -/
theorem InvB_of_stepOk {b b' : State} {c : Int} (hI : InvB b c)
    (h : StepOk b b')
    (hhd : ∀ i j, ctrlIdx i → (stn b' i j).busy = true →
      (stn b' i j).remExec = 0 →
      (qIss b').head? = some (issOf b' (stn b' i j))) : InvB b' c := by
  refine ⟨h.cyc ▸ hI.cyc, ?_, ?_, ?_, ?_, ?_, ?_, ?_, hhd⟩
  · intro i j hc hj
    rw [(h.fields i j).2]
    exact hI.latC i j hc (h.rows i ▸ hj)
  · intro i j hb
    rw [issOf_stepOk h]
    exact hI.busyB i j (h.busy i j hb)
  · intro i j hc hb
    rw [(h.fields i j).1, h.pc, h.plen]
    exact hI.ctrlG i j hc (h.busy i j hb)
  · intro t ht
    rw [qIss_stepOk h] at ht
    exact hI.snapB t ht
  · rw [qIss_stepOk h]
    exact hI.sorted
  · intro i j hc hb
    rw [issOf_stepOk h, qIss_stepOk h]
    exact hI.mem i j hc (h.busy i j hb)
  · intro i j i' j' hc hc' hb hb' he
    rw [issOf_stepOk h, issOf_stepOk h] at he
    exact hI.dist i j i' j' hc hc' (h.busy i j hb) (h.busy i' j' hb') he

/-- Transport when additionally no busy station's `remExec` changed:
the `hd` component carries over as well. -/
theorem InvB_of_stepOk_rem {b b' : State} {c : Int} (hI : InvB b c)
    (h : StepOk b b')
    (hrem : ∀ i j, (stn b' i j).busy = true →
      (stn b' i j).remExec = (stn b i j).remExec) : InvB b' c := by
  refine InvB_of_stepOk hI h (fun i j hc hb h0 => ?_)
  rw [qIss_stepOk h, issOf_stepOk h]
  exact hI.hd i j hc (h.busy i j hb) ((hrem i j hb) ▸ h0)

theorem stn_putStn_oor (st : State) (i j : Nat) (s : Station)
    (h : ¬ (i < st.stations.length ∧ j < (st.stations.getD i []).length)) :
    stn (putStn st i j s) i j = stn st i j := by
  by_cases hi : i < st.stations.length
  · have hj : (st.stations.getD i []).length ≤ j :=
      Nat.le_of_not_lt (fun hj => h ⟨hi, hj⟩)
    unfold stn putStn
    rw [List.set_eq_of_length_le hj]
    simp only [List.getD_eq_getElem?_getD]
    rw [List.getElem?_set_self hi, Option.getD_some]
  · unfold stn putStn
    rw [List.set_eq_of_length_le (Nat.le_of_not_lt hi)]

/-- Complete description of `stn` after `putStn`. -/
theorem stn_putStn (st : State) (i j i' j' : Nat) (s : Station) :
    stn (putStn st i j s) i' j' = stn st i' j' ∨
    (i = i' ∧ j = j' ∧ stn (putStn st i j s) i' j' = s) := by
  by_cases hp : i = i' ∧ j = j'
  · obtain ⟨rfl, rfl⟩ := hp
    by_cases hr : i < st.stations.length ∧ j < (st.stations.getD i []).length
    · exact Or.inr ⟨rfl, rfl, stn_putStn_self st i j s hr.1 hr.2⟩
    · exact Or.inl (stn_putStn_oor st i j s hr)
  · exact Or.inl (stn_putStn_ne st i j i' j' s hp)

theorem rows_putStn (st : State) (i j : Nat) (s : Station) (i' : Nat) :
    ((putStn st i j s).stations.getD i' []).length =
      (st.stations.getD i' []).length := by
  unfold putStn
  by_cases hi : i = i'
  · subst hi
    by_cases hlen : i < st.stations.length
    · simp only [getD_set_self, hlen, if_pos, List.length_set]
    · rw [List.set_eq_of_length_le (Nat.le_of_not_lt hlen)]
  · simp only [List.getD_eq_getElem?_getD, List.getElem?_set_ne hi]

/-- `putStn` with a record that keeps `busy`, `instIndex` and
`cyclesExec` (or turns `busy` off) is a `StepOk` step. -/
theorem stepOk_putStn (st : State) (i j : Nat) (s' : Station)
    (hb : s'.busy = true → (stn st i j).busy = true)
    (hii : s'.instIndex = (stn st i j).instIndex)
    (hcy : s'.cyclesExec = (stn st i j).cyclesExec) :
    StepOk st (putStn st i j s') := by
  refine ⟨rfl, rfl, rfl, rfl, fun _ => rfl, rows_putStn st i j s', ?_, ?_⟩
  · intro i2 j2 h
    rcases stn_putStn st i j i2 j2 s' with he | ⟨rfl, rfl, he⟩
    · rwa [he] at h
    · exact hb (he ▸ h)
  · intro i2 j2
    rcases stn_putStn st i j i2 j2 s' with he | ⟨rfl, rfl, he⟩
    · rw [he]
      exact ⟨rfl, rfl⟩
    · rw [he]
      exact ⟨hii, hcy⟩

theorem instAt_modify_issue (st : State) (n : Nat)
    (f : Instruction → Instruction) (hf : ∀ ins, (f ins).issue = ins.issue)
    (x : Int) :
    (instAt { st with program := st.program.modify f n } x).issue =
      (instAt st x).issue := by
  unfold instAt pyGet
  simp only [List.length_modify]
  cases h : pyNorm st.program.length x with
  | none => rfl
  | some m =>
    simp only [Option.some_bind, List.getElem?_modify]
    cases hc : st.program[m]? with
    | none => simp
    | some ins =>
      by_cases hm : n = m <;> simp [hm, hf]

/-- `modInst` with an issue-preserving modifier is a `StepOk` step. -/
theorem stepOk_modInst (st : State) (k : Int) (f : Instruction → Instruction)
    (hf : ∀ ins, (f ins).issue = ins.issue) : StepOk st (modInst st k f) := by
  unfold modInst
  cases h : pyNorm st.program.length k with
  | none =>
    exact ⟨rfl, rfl, rfl, rfl, fun _ => rfl, fun _ => rfl, fun _ _ hb => hb,
      fun _ _ => ⟨rfl, rfl⟩⟩
  | some n =>
    exact ⟨rfl, rfl, rfl, List.length_modify f n _, instAt_modify_issue st n f hf,
      fun _ => rfl, fun _ _ hb => hb, fun _ _ => ⟨rfl, rfl⟩⟩

/-- The crash flag can only be raised to `indexError` by the in-cycle
primitives (only the guarded not-taken branch of write-back produces
`emptyRestore`). -/
def CrashLe (b b' : State) : Prop :=
  b'.crash = b.crash ∨ b'.crash = some Crash.indexError

theorem CrashLe.crefl (b : State) : CrashLe b b := Or.inl (Eq.refl b.crash)

theorem CrashLe.ctrans {a b c : State} (h1 : CrashLe a b) (h2 : CrashLe b c) :
    CrashLe a c := by
  rcases h2 with h2 | h2
  · rcases h1 with h1 | h1
    · exact Or.inl (h2.trans h1)
    · exact Or.inr (h2.trans h1)
  · exact Or.inr h2

theorem stn_modInst (st : State) (k : Int) (f : Instruction → Instruction)
    (i j : Nat) : stn (modInst st k f) i j = stn st i j := by
  unfold modInst
  cases pyNorm st.program.length k <;> rfl

theorem crashLe_modInst (st : State) (k : Int) (f : Instruction → Instruction) :
    CrashLe st (modInst st k f) := by
  unfold modInst
  cases pyNorm st.program.length k with
  | none => exact Or.inr rfl
  | some n => exact Or.inl rfl

theorem crashLe_putStn (st : State) (i j : Nat) (s : Station) :
    CrashLe st (putStn st i j s) := Or.inl rfl

theorem sorted_head_le {l : List Int} (h : List.Chain' (· < ·) l)
    {a : Int} {t : List Int} (he : l = a :: t) {x : Int} (hx : x ∈ l) :
    a ≤ x := by
  subst he
  rcases List.mem_cons.mp hx with rfl | hx
  · exact le_refl x
  · have hp := (List.chain'_iff_pairwise.mp h)
    exact le_of_lt ((List.pairwise_cons.mp hp).1 x hx)

theorem gateSkip_false {b : State} {s : Station}
    (h : gateSkip b s = false) :
    b.sysQueue = [] ∨
    ∃ sn rest, b.sysQueue = sn :: rest ∧ issOf b s ≤ sn.issue := by
  unfold gateSkip at h
  cases hq : b.sysQueue with
  | nil => exact Or.inl rfl
  | cons sn rest =>
    rw [hq] at h
    simp only [decide_eq_false_iff_not, not_lt] at h
    exact Or.inr ⟨sn, rest, rfl, h⟩

/-- The issue value a control-flow station that is allowed to execute
must carry: the front snapshot's issue value. -/
theorem gate_forces_head {b : State} {c : Int} (hI : InvB b c) {i j : Nat}
    (hc : ctrlIdx i) (hb : (stn b i j).busy = true)
    (hg : gateSkip b (stn b i j) = false) :
    (qIss b).head? = some (issOf b (stn b i j)) := by
  have hmem := hI.mem i j hc hb
  rcases gateSkip_false hg with hq | ⟨sn, rest, hq, hle⟩
  · rw [show qIss b = [] by unfold qIss; rw [hq]; rfl] at hmem
    exact absurd hmem (List.not_mem_nil _)
  · have hqi : qIss b = sn.issue :: rest.map Snap.issue := by
      unfold qIss
      rw [hq, List.map_cons]
    have hge : sn.issue ≤ issOf b (stn b i j) :=
      sorted_head_le hI.sorted hqi hmem
    have heq : issOf b (stn b i j) = sn.issue := le_antisymm hle hge
    rw [hqi, List.head?_cons, heq]

/-- Invariant transport when the only `remExec` change is at position
`(i, j)`: the obligation for that position is supplied, all others are
inherited. -/
theorem InvB_update_rem {b final : State} {c : Int} (i j : Nat)
    (hI : InvB b c) (hSO : StepOk b final)
    (hothers : ∀ i' j', ¬ (i = i' ∧ j = j') → stn final i' j' = stn b i' j')
    (hme : ctrlIdx i → (stn final i j).busy = true →
      (stn final i j).remExec = 0 →
      (qIss b).head? = some (issOf b (stn b i j))) : InvB final c := by
  refine InvB_of_stepOk hI hSO (fun i' j' hc' hb' h0 => ?_)
  rw [qIss_stepOk hSO, issOf_stepOk hSO]
  by_cases hp : i = i' ∧ j = j'
  · obtain ⟨rfl, rfl⟩ := hp
    exact hme hc' hb' h0
  · have he := hothers i' j' hp
    refine hI.hd i' j' hc' (hSO.busy _ _ hb') ?_
    rw [← he]
    exact h0

/-- Replacing station `(i, j)` by a record that keeps its identity
fields, on top of a state whose stations agree with `b`, preserves the
invariant when the station was allowed to execute. -/
theorem execA_put {b st1 : State} {c : Int} (i j : Nat) (hI : InvB b c)
    (hso : StepOk b st1) (hcr : CrashLe b st1)
    (hstnAll : ∀ i2 j2, stn st1 i2 j2 = stn b i2 j2)
    (hgate : gateSkip b (stn b i j) = false)
    (s2 : Station)
    (hb2 : s2.busy = (stn b i j).busy)
    (hi2 : s2.instIndex = (stn b i j).instIndex)
    (hc2 : s2.cyclesExec = (stn b i j).cyclesExec) :
    InvB (putStn st1 i j s2) c ∧ StepOk b (putStn st1 i j s2) ∧
      CrashLe b (putStn st1 i j s2) := by
  have hso2 : StepOk st1 (putStn st1 i j s2) := by
    refine stepOk_putStn st1 i j s2 (fun hb => ?_) ?_ ?_ <;> rw [hstnAll i j]
    · rw [hb2] at hb
      exact hb
    · exact hi2
    · exact hc2
  have hsoAll : StepOk b (putStn st1 i j s2) := hso.trans hso2
  refine ⟨?_, hsoAll, hcr.ctrans (crashLe_putStn st1 i j s2)⟩
  refine InvB_update_rem i j hI hsoAll (fun i2 j2 hp => ?_) (fun hc hb0 h0 => ?_)
  · rw [stn_putStn_ne st1 i j i2 j2 s2 hp, hstnAll i2 j2]
  · rcases stn_putStn st1 i j i j s2 with he | ⟨_, _, he⟩
    · rw [he, hstnAll i j] at h0
      have hbb : (stn b i j).busy = true := by
        rw [he, hstnAll i j] at hb0
        exact hb0
      exact gate_forces_head hI hc hbb hgate
    · rw [he] at h0 hb0
      have hbb : (stn b i j).busy = true := hb2 ▸ hb0
      exact gate_forces_head hI hc hbb hgate

/-- An issue-preserving `modInst` on top of an already-transported state
keeps the whole invariant triple. -/
theorem invTriple_modInst {b st2 : State} {c : Int} (k : Int)
    (f : Instruction → Instruction) (hf : ∀ ins, (f ins).issue = ins.issue)
    (h : InvB st2 c ∧ StepOk b st2 ∧ CrashLe b st2) :
    InvB (modInst st2 k f) c ∧ StepOk b (modInst st2 k f) ∧
      CrashLe b (modInst st2 k f) := by
  have hso := stepOk_modInst st2 k f hf
  refine ⟨InvB_of_stepOk_rem h.1 hso (fun i2 j2 _ => ?_), h.2.1.trans hso,
    h.2.2.ctrans (crashLe_modInst st2 k f)⟩
  rw [stn_modInst]

set_option maxHeartbeats 1000000 in
theorem execStepA_pres (b : State) (c : Int) (i j : Nat) (hI : InvB b c) :
    InvB (execStepA b i j) c ∧ StepOk b (execStepA b i j) ∧
      CrashLe b (execStepA b i j) := by
  unfold execStepA
  simp only []
  split_ifs with h1 h2 h3 h4 h5 h6 h7
  all_goals try exact ⟨hI, StepOk.refl b, CrashLe.crefl b⟩
  all_goals have hgate : gateSkip b (stn b i j) = false := by simpa using h4
  all_goals first
    | (refine invTriple_modInst _ _ ?_
          (execA_put i j hI (stepOk_modInst b _ _ ?_)
            (crashLe_modInst b _ _) (fun i2 j2 => stn_modInst b _ _ i2 j2)
            hgate _ ?_ ?_ ?_) <;> first | rfl | exact fun ins => rfl)
    | (refine execA_put i j hI (stepOk_modInst b _ _ ?_)
          (crashLe_modInst b _ _) (fun i2 j2 => stn_modInst b _ _ i2 j2)
          hgate _ ?_ ?_ ?_ <;> first | rfl | exact fun ins => rfl)
    | (refine invTriple_modInst _ _ ?_
          (execA_put i j hI (StepOk.refl b) (CrashLe.crefl b) (fun _ _ => rfl)
            hgate _ ?_ ?_ ?_) <;> first | rfl | exact fun ins => rfl)
    | (refine execA_put i j hI (StepOk.refl b) (CrashLe.crefl b) (fun _ _ => rfl)
          hgate _ ?_ ?_ ?_ <;> first | rfl | exact fun ins => rfl)

/-- The three facts carried through every intermediate state of a
cycle: invariant, frame relation to the cycle's base state, and
crash-kind bound. -/
def Triple (b b' : State) (c : Int) : Prop :=
  InvB b' c ∧ StepOk b b' ∧ CrashLe b b'

theorem Triple.base {b : State} {c : Int} (hI : InvB b c) : Triple b b c :=
  ⟨hI, StepOk.refl b, CrashLe.crefl b⟩

theorem Triple.comp {b b1 b2 : State} {c : Int} (h1 : Triple b b1 c)
    (h2 : Triple b1 b2 c) : Triple b b2 c :=
  ⟨h2.1, h1.2.1.trans h2.2.1, h1.2.2.ctrans h2.2.2⟩

theorem triple_crashIdx {b st2 : State} {c : Int} (h : Triple b st2 c) :
    Triple b (crashIdx st2) c := by
  have hso : StepOk st2 (crashIdx st2) :=
    ⟨rfl, rfl, rfl, rfl, fun _ => rfl, fun _ => rfl, fun _ _ hb => hb,
     fun _ _ => ⟨rfl, rfl⟩⟩
  exact ⟨InvB_of_stepOk_rem h.1 hso (fun _ _ _ => rfl), h.2.1.trans hso,
    h.2.2.ctrans (Or.inr rfl)⟩

theorem triple_modInst {b st2 : State} {c : Int} (k : Int)
    (f : Instruction → Instruction) (hf : ∀ ins, (f ins).issue = ins.issue)
    (h : Triple b st2 c) : Triple b (modInst st2 k f) c := by
  have hso := stepOk_modInst st2 k f hf
  refine ⟨InvB_of_stepOk_rem h.1 hso (fun i2 j2 _ => ?_), h.2.1.trans hso,
    h.2.2.ctrans (crashLe_modInst st2 k f)⟩
  rw [stn_modInst]

/-- Replacing a non-control station by a record with the same identity
fields preserves the whole triple (the `hd` obligation is vacuous
at a non-control position). -/
theorem execB_put {b st1 : State} {c : Int} (i j : Nat) (hci : ¬ ctrlIdx i)
    (hI : InvB b c) (h1 : Triple b st1 c)
    (hstnOther : ∀ i2 j2, ¬ (i = i2 ∧ j = j2) → stn st1 i2 j2 = stn b i2 j2)
    (s2 : Station)
    (hb2 : s2.busy = true → (stn st1 i j).busy = true)
    (hi2 : s2.instIndex = (stn st1 i j).instIndex)
    (hc2 : s2.cyclesExec = (stn st1 i j).cyclesExec) :
    Triple b (putStn st1 i j s2) c := by
  have hso2 : StepOk st1 (putStn st1 i j s2) :=
    stepOk_putStn st1 i j s2 hb2 hi2 hc2
  have hsoAll : StepOk b (putStn st1 i j s2) := h1.2.1.trans hso2
  refine ⟨?_, hsoAll, h1.2.2.ctrans (crashLe_putStn st1 i j s2)⟩
  refine InvB_update_rem i j hI hsoAll (fun i2 j2 hp => ?_)
    (fun hc _ _ => absurd hc hci)
  rw [stn_putStn_ne st1 i j i2 j2 s2 hp, hstnOther i2 j2 hp]

theorem execStepBAddr_pres (acc : State × Bool) (c : Int) (i j : Nat)
    (hci : ¬ ctrlIdx i) (hI : InvB acc.1 c) :
    Triple acc.1 (execStepBAddr acc i j).1 c := by
  unfold execStepBAddr
  simp only []
  split_ifs with hA hB hC
  all_goals try exact Triple.base hI
  all_goals try split
  all_goals try exact triple_crashIdx (Triple.base hI)
  all_goals try split_ifs with hV
  all_goals try exact Triple.base hI
  all_goals try split
  all_goals first
    | (refine triple_crashIdx (execB_put i j hci hI
          (triple_modInst _ _ ?_ (Triple.base hI))
          (fun i2 j2 _ => stn_modInst _ _ _ i2 j2) _ ?_ ?_ ?_) <;>
        first
          | exact fun ins => rfl
          | (intro hb; rw [stn_modInst]; exact hb)
          | rw [stn_modInst])
    | (refine triple_crashIdx (execB_put i j hci hI
          (Triple.base hI) (fun _ _ _ => rfl) _ ?_ ?_ ?_) <;>
        first
          | exact fun hb => hb
          | rfl)
    | (refine execB_put i j hci hI
          (triple_modInst _ _ ?_ (Triple.base hI))
          (fun i2 j2 _ => stn_modInst _ _ _ i2 j2) _ ?_ ?_ ?_ <;>
        first
          | exact fun ins => rfl
          | (intro hb; rw [stn_modInst]; exact hb)
          | rw [stn_modInst])
    | (refine execB_put i j hci hI
          (Triple.base hI) (fun _ _ _ => rfl) _ ?_ ?_ ?_ <;>
        first
          | exact fun hb => hb
          | rfl)

theorem execStepBExec_pres (acc : State × Bool) (c : Int) (i j : Nat)
    (hci : ¬ ctrlIdx i) (hI : InvB acc.1 c) :
    Triple acc.1 (execStepBExec acc i j).1 c := by
  unfold execStepBExec
  simp only []
  split_ifs with hA hB hC
  all_goals try exact Triple.base hI
  all_goals try split
  all_goals try refine triple_crashIdx ?_
  all_goals first
    | (refine execB_put i j hci hI
          (triple_modInst _ _ ?_
            (execB_put i j hci hI (Triple.base hI) (fun _ _ _ => rfl) _ ?_ ?_ ?_))
          (fun i2 j2 hp => ?_) _ ?_ ?_ ?_ <;>
        first
          | exact fun ins => rfl
          | exact fun hb => hb
          | rfl
          | rw [stn_modInst, stn_putStn_ne _ _ _ _ _ _ hp]
          | (intro hb
             rw [stn_modInst]
             rcases stn_putStn acc.1 i j i j _ with he | ⟨h1x, h2x, he⟩ <;> rw [he] <;>
               exact hb)
          | (rw [stn_modInst]
             rcases stn_putStn acc.1 i j i j _ with he | ⟨h1x, h2x, he⟩ <;> rw [he]))
    | (refine triple_modInst _ _ ?_
          (execB_put i j hci hI (Triple.base hI) (fun _ _ _ => rfl) _ ?_ ?_ ?_) <;>
        first
          | exact fun ins => rfl
          | exact fun hb => hb
          | rfl)
    | (refine execB_put i j hci hI (Triple.base hI) (fun _ _ _ => rfl) _ ?_ ?_ ?_ <;>
        first
          | exact fun hb => hb
          | rfl)

theorem execStepB_pres (acc : State × Bool) (c : Int) (i j : Nat)
    (hci : ¬ ctrlIdx i) (hI : InvB acc.1 c) :
    Triple acc.1 (execStepB acc i j).1 c := by
  unfold execStepB
  simp only []
  split_ifs with hA hB hC hD hE hF
  all_goals first
    | exact Triple.base hI
    | exact execStepBAddr_pres acc c i j hci hI
    | exact execStepBExec_pres acc c i j hci hI

theorem foldl_pres_mem {α β : Type} {P : β → Prop} (f : β → α → β)
    (l : List α) (b : β) (hb : P b)
    (h : ∀ b a, a ∈ l → P b → P (f b a)) : P (l.foldl f b) := by
  induction l generalizing b with
  | nil => exact hb
  | cons x xs ih =>
    exact ih (f b x) (h b x (List.mem_cons_self x xs) hb)
      (fun b2 a ha => h b2 a (List.mem_cons_of_mem x ha))

theorem foldBank_pres_mem {β : Type} {P : β → Prop} (st : State)
    (cats : List Nat) (init : β) (f : β → Nat → Nat → β) (hinit : P init)
    (h : ∀ b i j, i ∈ cats → P b → P (f b i j)) :
    P (foldBank st cats init f) := by
  unfold foldBank
  refine foldl_pres_mem _ _ _ hinit (fun b i hi hb => ?_)
  exact foldl_pres _ _ _ hb (fun b2 j h2 => h b2 i j hi h2)

theorem executeStep_pres (st : State) (c : Int) (hI : InvB st c) :
    Triple st (executeStep st) c := by
  unfold executeStep
  by_cases h1 : st.crash.isSome = true
  · rw [if_pos h1]
    exact Triple.base hI
  rw [if_neg h1]
  simp only []
  have hA : Triple st
      (foldBank st [2, 3, 4, 5, 6] st (fun b i j => execStepA b i j)) c :=
    foldBank_pres (P := fun b2 => Triple st b2 c) st [2, 3, 4, 5, 6] st
      (fun b i j => execStepA b i j) (Triple.base hI)
      (fun b i j hP => Triple.comp hP (execStepA_pres b c i j hP.1))
  have hB : Triple st
      (foldBank (foldBank st [2, 3, 4, 5, 6] st (fun b i j => execStepA b i j))
        [0, 1]
        ((foldBank st [2, 3, 4, 5, 6] st (fun b i j => execStepA b i j)), false)
        (fun b i j => execStepB b i j)).1 c := by
    refine foldBank_pres_mem
      (P := fun acc2 : State × Bool => Triple st acc2.1 c) _ [0, 1] _ _
      hA (fun b2 i j hmem hP => ?_)
    have hci : ¬ ctrlIdx i := by
      intro hc
      unfold ctrlIdx at hc
      rcases List.mem_cons.mp hmem with rfl | h4
      · omega
      rcases List.mem_cons.mp h4 with rfl | h5
      · omega
      · exact absurd h5 (List.not_mem_nil i)
    exact hP.comp (execStepB_pres b2 c i j hci hP.1)
  split_ifs with h2 h3
  · exact hB
  · have hso : StepOk
        (foldBank (foldBank st [2, 3, 4, 5, 6] st (fun b i j => execStepA b i j))
          [0, 1]
          ((foldBank st [2, 3, 4, 5, 6] st (fun b i j => execStepA b i j)), false)
          (fun b i j => execStepB b i j)).1
        { (foldBank (foldBank st [2, 3, 4, 5, 6] st (fun b i j => execStepA b i j))
            [0, 1]
            ((foldBank st [2, 3, 4, 5, 6] st (fun b i j => execStepA b i j)), false)
            (fun b i j => execStepB b i j)).1 with
          lsq := (foldBank (foldBank st [2, 3, 4, 5, 6] st (fun b i j => execStepA b i j))
            [0, 1]
            ((foldBank st [2, 3, 4, 5, 6] st (fun b i j => execStepA b i j)), false)
            (fun b i j => execStepB b i j)).1.lsq.tail } :=
      ⟨rfl, rfl, rfl, rfl, fun _ => rfl, fun _ => rfl, fun _ _ hb => hb,
       fun _ _ => ⟨rfl, rfl⟩⟩
    exact hB.comp ⟨InvB_of_stepOk_rem hB.1 hso (fun _ _ _ => rfl), hso, Or.inl rfl⟩
  · exact hB

theorem InvB_mono {st : State} {c c' : Int} (hI : InvB st c) (h : c ≤ c') :
    InvB st c' := by
  refine ⟨hI.cyc, hI.latC, ?_, hI.ctrlG, ?_, hI.sorted, hI.mem, hI.dist, hI.hd⟩
  · intro i j hb
    exact ⟨(hI.busyB i j hb).1, lt_of_lt_of_le (hI.busyB i j hb).2 h⟩
  · intro t ht
    exact ⟨(hI.snapB t ht).1, lt_of_lt_of_le (hI.snapB t ht).2 h⟩

theorem InvB_cycle_inc {st : State} {c : Int} (hI : InvB st c) :
    InvB { st with cycle := st.cycle + 1 } c := by
  refine ⟨?_, hI.latC, hI.busyB, hI.ctrlG, hI.snapB, hI.sorted, hI.mem,
    hI.dist, hI.hd⟩
  show (1 : Int) ≤ st.cycle + 1
  have := hI.cyc
  omega

theorem firstFree_some {l : List Station} {j : Nat}
    (h : firstFree l 0 = some j) :
    j < l.length ∧ (l.getD j default).busy = false := by
  suffices hgen : ∀ (l2 : List Station) (n j2 : Nat), firstFree l2 n = some j2 →
      n ≤ j2 ∧ j2 - n < l2.length ∧ (l2.getD (j2 - n) default).busy = false by
    obtain ⟨_, h1, h2⟩ := hgen l 0 j h
    rw [Nat.sub_zero] at h1 h2
    exact ⟨h1, h2⟩
  intro l2
  induction l2 with
  | nil => intro n j2 h2; cases h2
  | cons s rest ih =>
    intro n j2 h2
    unfold firstFree at h2
    by_cases hb : s.busy = true
    · rw [if_pos hb] at h2
      obtain ⟨h3, h4, h5⟩ := ih (n + 1) j2 h2
      refine ⟨by omega, ?_, ?_⟩
      · simp only [List.length_cons]
        omega
      · have : j2 - n = (j2 - (n + 1)) + 1 := by omega
        rw [this]
        simpa using h5
    · rw [if_neg hb] at h2
      cases h2
      refine ⟨le_refl _, by simp, ?_⟩
      simp only [Nat.sub_self, List.getD_cons_zero]
      exact Bool.not_eq_true s.busy ▸ hb

theorem pyNorm_pos {n : Nat} {i : Int} (h0 : 0 ≤ i) (h1 : i < (n : Int)) :
    pyNorm n i = some i.toNat := by
  unfold pyNorm
  rw [if_pos h0, if_pos h1]

theorem pyGet_pos {α : Type} {l : List α} {i : Int} (h0 : 0 ≤ i)
    (h1 : i < (l.length : Int)) : pyGet l i = l[i.toNat]? := by
  unfold pyGet
  rw [pyNorm_pos h0 h1, Option.some_bind]

theorem chain'_concat_lt {l : List Int} {x : Int}
    (hs : List.Chain' (· < ·) l) (hx : ∀ y ∈ l, y < x) :
    List.Chain' (· < ·) (l ++ [x]) := by
  rw [List.chain'_append]
  refine ⟨hs, List.chain'_singleton x, fun a ha b hb => ?_⟩
  rw [List.head?_cons, Option.mem_some_iff] at hb
  subst hb
  exact hx a (List.mem_of_mem_getLast? ha)

theorem updLast_map_issue (l : List Snap) (f : Snap → Snap)
    (hf : ∀ sn, (f sn).issue = sn.issue) :
    (updLast f l).map Snap.issue = l.map Snap.issue := by
  induction l with
  | nil => rfl
  | cons x xs ih =>
    cases xs with
    | nil => simp [updLast, hf]
    | cons y ys => simpa [updLast] using ih

theorem pyNorm_lt {n : Nat} {i : Int} {m : Nat} (h : pyNorm n i = some m) :
    m < n := by
  unfold pyNorm at h
  split_ifs at h with h1 h2 h3
  · cases h
    omega
  · cases h
    omega

theorem instAt_modInst_cases (st : State) (k : Int)
    (f : Instruction → Instruction) (x : Int) :
    instAt (modInst st k f) x = instAt st x ∨
    instAt (modInst st k f) x = f (instAt st x) := by
  unfold modInst
  cases hk : pyNorm st.program.length k with
  | none => exact Or.inl rfl
  | some n =>
    unfold instAt pyGet
    simp only [List.length_modify]
    cases hx : pyNorm st.program.length x with
    | none => exact Or.inl rfl
    | some m =>
      simp only [Option.some_bind, List.getElem?_modify]
      by_cases hnm : n = m
      · subst hnm
        have hlt : n < st.program.length := pyNorm_lt hx
        rw [List.getElem?_eq_getElem hlt]
        simp
      · cases hc : st.program[m]? <;> simp [hnm]

theorem instAt_modInst_ne (st : State) (k : Int)
    (f : Instruction → Instruction) (x : Int)
    (h : pyNorm st.program.length x ≠ pyNorm st.program.length k ∨
      pyNorm st.program.length x = none) :
    instAt (modInst st k f) x = instAt st x := by
  unfold modInst
  cases hk : pyNorm st.program.length k with
  | none => rfl
  | some n =>
    unfold instAt pyGet
    simp only [List.length_modify]
    cases hx : pyNorm st.program.length x with
    | none => rfl
    | some m =>
      simp only [Option.some_bind, List.getElem?_modify]
      have hnm : n ≠ m := by
        rcases h with h | h
        · rw [hk, hx] at h
          intro he
          exact h (by rw [he])
        · rw [hx] at h
          cases h
      cases hc : st.program[m]? <;> simp [hnm]

theorem instAt_modInst_self_issue (st : State) (k : Int) (v : Int)
    {m : Nat} (hk : pyNorm st.program.length k = some m) :
    (instAt (modInst st k (fun ins => { ins with issue := v })) k).issue = v := by
  unfold modInst
  rw [hk]
  unfold instAt pyGet
  simp only [List.length_modify, hk, Option.some_bind, List.getElem?_modify]
  have hlt : m < st.program.length := pyNorm_lt hk
  rw [List.getElem?_eq_getElem hlt]
  simp

theorem head?_append_left {α : Type} {l l2 : List α} (h : l ≠ []) :
    (l ++ l2).head? = l.head? := by
  cases l with
  | nil => exact absurd rfl h
  | cons x xs => rfl

theorem orCrash_some {α : Type} (st : State) (a : α) (k : α → State) :
    orCrash st (some a) k = k a := rfl

theorem orCrash_none {α : Type} (st : State) (k : α → State) :
    orCrash st (none : Option α) k = crashIdx st := rfl

theorem instAt_congr {a b : State} (h : b.program = a.program) (x : Int) :
    instAt b x = instAt a x := by
  unfold instAt pyGet
  rw [h]

theorem stations_length_putStn (b : State) (i j : Nat) (s : Station) :
    (putStn b i j s).stations.length = b.stations.length := by
  unfold putStn
  simp

/-- `stn` at the written position after the three same-position writes of
the issue chain. -/
theorem stn_putStn3_self (b : State) (i j : Nat) (s1 s2 s3 : Station)
    (hi : i < b.stations.length) (hj : j < (b.stations.getD i []).length) :
    stn (putStn (putStn (putStn b i j s1) i j s2) i j s3) i j = s3 := by
  have h1 : i < (putStn (putStn b i j s1) i j s2).stations.length := by
    rw [stations_length_putStn, stations_length_putStn]
    exact hi
  have h2 : j < ((putStn (putStn b i j s1) i j s2).stations.getD i []).length := by
    rw [rows_putStn, rows_putStn]
    exact hj
  exact stn_putStn_self _ i j s3 h1 h2

/-- `stn` at any other position after the three same-position writes. -/
theorem stn_putStn3_ne (b : State) (i j i2 j2 : Nat) (s1 s2 s3 : Station)
    (hp : ¬ (i = i2 ∧ j = j2)) :
    stn (putStn (putStn (putStn b i j s1) i j s2) i j s3) i2 j2 =
      stn b i2 j2 := by
  rw [stn_putStn_ne _ _ _ _ _ _ hp, stn_putStn_ne _ _ _ _ _ _ hp,
    stn_putStn_ne _ _ _ _ _ _ hp]

theorem rows_putStn3 (b : State) (i j : Nat) (s1 s2 s3 : Station) (i2 : Nat) :
    (((putStn (putStn (putStn b i j s1) i j s2) i j s3)).stations.getD
      i2 []).length = (b.stations.getD i2 []).length := by
  rw [rows_putStn, rows_putStn, rows_putStn]

/-- Field bookkeeping of the queue/PC step of issue: only `lsq`,
`sysQueue` and `pc` change, and the snapshot push appends exactly the
current cycle to the stack's issue values. -/
theorem issueQueues_fields (st : State) (ci : Nat) (p : Int) :
    (issueQueues st ci p).stations = st.stations ∧
    (issueQueues st ci p).pc = st.pc + 1 ∧
    (issueQueues st ci p).cycle = st.cycle ∧
    (issueQueues st ci p).program = st.program ∧
    (issueQueues st ci p).crash = st.crash ∧
    (issueQueues st ci p).registers = st.registers ∧
    (¬ ctrlIdx ci → (issueQueues st ci p).sysQueue = st.sysQueue) ∧
    (ctrlIdx ci → (issueQueues st ci p).sysQueue.map Snap.issue =
      st.sysQueue.map Snap.issue ++ [st.cycle]) := by
  unfold issueQueues ctrlIdx
  simp only []
  by_cases h1 : ci = 0 ∨ ci = 1
  · have h2 : ¬ (ci = 2 ∨ ci = 3) := by omega
    rw [if_pos h1, if_neg h2]
    exact ⟨rfl, rfl, rfl, rfl, rfl, rfl, fun _ => rfl, fun hc => absurd hc h2⟩
  · rw [if_neg h1]
    by_cases h2 : ci = 2 ∨ ci = 3
    · rw [if_pos h2]
      cases hq : st.sysQueue with
      | nil =>
        refine ⟨rfl, rfl, rfl, rfl, rfl, rfl, fun hn => absurd h2 hn,
          fun _ => ?_⟩
        simp
      | cons a l =>
        refine ⟨rfl, rfl, rfl, rfl, rfl, rfl, fun hn => absurd h2 hn,
          fun _ => ?_⟩
        simp
    · rw [if_neg h2]
      exact ⟨rfl, rfl, rfl, rfl, rfl, rfl, fun _ => rfl, fun hc => absurd hc h2⟩

/-- Field bookkeeping of the rename step of issue: stations, PC, cycle,
program and the stack's issue values are untouched, and the crash flag
can only be raised to `IndexError`. -/
theorem issueRename_fields (st : State) (rd sid : Nat) :
    (issueRename st rd sid).stations = st.stations ∧
    (issueRename st rd sid).pc = st.pc ∧
    (issueRename st rd sid).cycle = st.cycle ∧
    (issueRename st rd sid).program = st.program ∧
    (issueRename st rd sid).sysQueue.map Snap.issue =
      st.sysQueue.map Snap.issue ∧
    CrashLe st (issueRename st rd sid) := by
  unfold issueRename
  simp only []
  split_ifs with h
  · cases hq : st.sysQueue with
    | nil =>
      unfold orCrash
      cases hps : pySet st.registerStatus (rd : Int) sid with
      | none =>
        refine ⟨rfl, rfl, rfl, rfl, ?_, Or.inr rfl⟩
        show st.sysQueue.map Snap.issue = List.map Snap.issue []
        rw [hq]
      | some rs2 => exact ⟨rfl, rfl, rfl, rfl, rfl, Or.inl rfl⟩
    | cons a l =>
      unfold orCrash
      cases hps : pySet (((a :: l).getLast?.getD default).regStatus)
          (rd : Int) sid with
      | none =>
        refine ⟨rfl, rfl, rfl, rfl, ?_, Or.inr rfl⟩
        show st.sysQueue.map Snap.issue = List.map Snap.issue (a :: l)
        rw [hq]
      | some tr2 =>
        refine ⟨rfl, rfl, rfl, rfl, ?_, Or.inl rfl⟩
        exact updLast_map_issue _ _ (fun sn => rfl)
  · exact ⟨rfl, rfl, rfl, rfl, rfl, Or.inl rfl⟩

/-- The invariant after the queue/PC step of issue, given a state `st3`
(the state after the station writes and the rename) whose difference
from the cycle's base state `st` is exactly: the newly claimed busy
station at `(ci, j)` with the current PC as instruction index and a full
execution countdown, and the issue stamp of `program[pc]` set to the
current cycle. -/
theorem issueFinish (st st3 : State) (ci j : Nat)
    (hI : InvB st st.cycle)
    (hpc0 : 0 ≤ st.pc) (hpc1 : st.pc < (st.program.length : Int))
    (hjlen : j < (st.stations.getD ci []).length)
    (hbusy3 : (stn st3 ci j).busy = true)
    (hii3 : (stn st3 ci j).instIndex = st.pc)
    (hrem3 : (stn st3 ci j).remExec = (stn st ci j).cyclesExec)
    (hcyE3 : (stn st3 ci j).cyclesExec = (stn st ci j).cyclesExec)
    (hoth : ∀ i2 j2, ¬ (ci = i2 ∧ j = j2) → stn st3 i2 j2 = stn st i2 j2)
    (hrows : ∀ i2, (st3.stations.getD i2 []).length =
      (st.stations.getD i2 []).length)
    (hsqm : st3.sysQueue.map Snap.issue = st.sysQueue.map Snap.issue)
    (hpc3 : st3.pc = st.pc) (hcyc3 : st3.cycle = st.cycle)
    (hplen : st3.program.length = st.program.length)
    (hissP : (instAt st3 st.pc).issue = st.cycle)
    (hissO : ∀ x, (instAt st3 x).issue = (instAt st x).issue ∨
      (instAt st3 x).issue = st.cycle)
    (hissLt : ∀ x, 0 ≤ x → x < st.pc →
      (instAt st3 x).issue = (instAt st x).issue) :
    InvB (issueQueues st3 ci st.pc) (st.cycle + 1) ∧
    (issueQueues st3 ci st.pc).cycle = st.cycle ∧
    (issueQueues st3 ci st.pc).crash = st3.crash := by
  obtain ⟨hFst, hFpc, hFcyc, hFprog, hFcrash, hFreg, hFq1, hFq2⟩ :=
    issueQueues_fields st3 ci st.pc
  have hstnF : ∀ i2 j2, stn (issueQueues st3 ci st.pc) i2 j2 = stn st3 i2 j2 := by
    intro i2 j2
    unfold stn
    rw [hFst]
  have hIa : ∀ x, instAt (issueQueues st3 ci st.pc) x = instAt st3 x :=
    fun x => instAt_congr hFprog x
  have hqN : ¬ ctrlIdx ci → qIss (issueQueues st3 ci st.pc) = qIss st := by
    intro hc
    unfold qIss
    rw [hFq1 hc, hsqm]
  have hqC : ctrlIdx ci →
      qIss (issueQueues st3 ci st.pc) = qIss st ++ [st.cycle] := by
    intro hc
    unfold qIss
    rw [hFq2 hc, hsqm, hcyc3]
  have hcyc1 : (1 : Int) ≤ st.cycle := hI.cyc
  have hnewIss : issOf (issueQueues st3 ci st.pc)
      (stn (issueQueues st3 ci st.pc) ci j) = st.cycle := by
    unfold issOf
    rw [hstnF, hii3, hIa]
    exact hissP
  have hothF : ∀ i2 j2, ¬ (ci = i2 ∧ j = j2) →
      stn (issueQueues st3 ci st.pc) i2 j2 = stn st i2 j2 :=
    fun i2 j2 hp => (hstnF i2 j2).trans (hoth i2 j2 hp)
  have hctrlIss : ∀ i2 j2, ¬ (ci = i2 ∧ j = j2) → ctrlIdx i2 →
      (stn st i2 j2).busy = true →
      issOf (issueQueues st3 ci st.pc)
        (stn (issueQueues st3 ci st.pc) i2 j2) = issOf st (stn st i2 j2) := by
    intro i2 j2 hp hc2 hb2
    unfold issOf
    rw [hothF i2 j2 hp, hIa]
    obtain ⟨hg0, hg1, _⟩ := hI.ctrlG i2 j2 hc2 hb2
    exact hissLt _ hg0 hg1
  have hqSub : ∀ t, t ∈ qIss st → t ∈ qIss (issueQueues st3 ci st.pc) := by
    intro t ht
    by_cases hc : ctrlIdx ci
    · rw [hqC hc]
      exact List.mem_append_left _ ht
    · rw [hqN hc]
      exact ht
  refine ⟨⟨?_, ?_, ?_, ?_, ?_, ?_, ?_, ?_, ?_⟩, by rw [hFcyc, hcyc3], hFcrash⟩
  · rw [hFcyc, hcyc3]
    exact hcyc1
  · intro i2 j2 hc2 hl2
    rw [hFst, hrows] at hl2
    rw [hstnF]
    by_cases hp : ci = i2 ∧ j = j2
    · obtain ⟨rfl, rfl⟩ := hp
      rw [hcyE3]
      exact hI.latC ci j hc2 hjlen
    · rw [hoth i2 j2 hp]
      exact hI.latC i2 j2 hc2 hl2
  · intro i2 j2 hb2
    by_cases hp : ci = i2 ∧ j = j2
    · obtain ⟨rfl, rfl⟩ := hp
      rw [hnewIss]
      omega
    · rw [hothF i2 j2 hp] at hb2
      unfold issOf
      rw [hothF i2 j2 hp, hIa]
      rcases hissO (stn st i2 j2).instIndex with he | he
      · rw [he]
        have hbb := hI.busyB i2 j2 hb2
        unfold issOf at hbb
        omega
      · rw [he]
        omega
  · intro i2 j2 hc2 hb2
    rw [hstnF] at hb2 ⊢
    rw [hFpc, hFprog, hpc3, hplen]
    by_cases hp : ci = i2 ∧ j = j2
    · obtain ⟨rfl, rfl⟩ := hp
      rw [hii3]
      exact ⟨hpc0, by omega, hpc1⟩
    · rw [hoth i2 j2 hp] at hb2 ⊢
      obtain ⟨a1, a2, a3⟩ := hI.ctrlG i2 j2 hc2 hb2
      exact ⟨a1, by omega, a3⟩
  · intro t ht
    by_cases hc : ctrlIdx ci
    · rw [hqC hc] at ht
      rcases List.mem_append.mp ht with h | h
      · have := hI.snapB t h
        omega
      · have : t = st.cycle := List.mem_singleton.mp h
        omega
    · rw [hqN hc] at ht
      have := hI.snapB t ht
      omega
  · by_cases hc : ctrlIdx ci
    · rw [hqC hc]
      exact chain'_concat_lt hI.sorted (fun y hy => (hI.snapB y hy).2)
    · rw [hqN hc]
      exact hI.sorted
  · intro i2 j2 hc2 hb2
    by_cases hp : ci = i2 ∧ j = j2
    · obtain ⟨rfl, rfl⟩ := hp
      rw [hnewIss, hqC hc2]
      exact List.mem_append_right _ (List.mem_singleton.mpr rfl)
    · rw [hothF i2 j2 hp] at hb2
      rw [hctrlIss i2 j2 hp hc2 hb2]
      exact hqSub _ (hI.mem i2 j2 hc2 hb2)
  · intro i2 j2 i3 j3 hc2 hc3 hb2 hb3 he
    by_cases hp2 : ci = i2 ∧ j = j2 <;> by_cases hp3 : ci = i3 ∧ j = j3
    · obtain ⟨rfl, rfl⟩ := hp2
      exact hp3
    · obtain ⟨rfl, rfl⟩ := hp2
      rw [hothF i3 j3 hp3] at hb3
      rw [hnewIss, hctrlIss i3 j3 hp3 hc3 hb3] at he
      have hlt := (hI.busyB i3 j3 hb3).2
      exact absurd he (by omega)
    · obtain ⟨rfl, rfl⟩ := hp3
      rw [hothF i2 j2 hp2] at hb2
      rw [hnewIss, hctrlIss i2 j2 hp2 hc2 hb2] at he
      have hlt := (hI.busyB i2 j2 hb2).2
      exact absurd he (by omega)
    · rw [hothF i2 j2 hp2] at hb2
      rw [hothF i3 j3 hp3] at hb3
      rw [hctrlIss i2 j2 hp2 hc2 hb2, hctrlIss i3 j3 hp3 hc3 hb3] at he
      exact hI.dist i2 j2 i3 j3 hc2 hc3 hb2 hb3 he
  · intro i2 j2 hc2 hb2 h0
    by_cases hp : ci = i2 ∧ j = j2
    · obtain ⟨rfl, rfl⟩ := hp
      rw [hstnF, hrem3] at h0
      have hlat := hI.latC ci j hc2 hjlen
      exact absurd h0 (by omega)
    · rw [hothF i2 j2 hp] at hb2
      have h0' : (stn st i2 j2).remExec = 0 := by
        rw [hothF i2 j2 hp] at h0
        exact h0
      have hhd := hI.hd i2 j2 hc2 hb2 h0'
      rw [hctrlIss i2 j2 hp hc2 hb2]
      by_cases hc : ctrlIdx ci
      · rw [hqC hc]
        have hne : qIss st ≠ [] := by
          intro hnil
          rw [hnil] at hhd
          simp at hhd
        rw [head?_append_left hne]
        exact hhd
      · rw [hqN hc]
        exact hhd

/-- The rename step followed by the queue/PC step of issue, starting
from a station-write state `stC` with the properties established by the
issue chain, keeps the crash bound and (when no `IndexError` was
raised) re-establishes the invariant at the incremented cycle bound. -/
theorem issuePlace_finish (st stC : State) (ci j : Nat) (rd sid : Nat)
    (hI : InvB st st.cycle)
    (hpc0 : 0 ≤ st.pc) (hpc1 : st.pc < (st.program.length : Int))
    (hjlen : j < (st.stations.getD ci []).length)
    (hCbusy : (stn stC ci j).busy = true)
    (hCii : (stn stC ci j).instIndex = st.pc)
    (hCrem : (stn stC ci j).remExec = (stn st ci j).cyclesExec)
    (hCcyE : (stn stC ci j).cyclesExec = (stn st ci j).cyclesExec)
    (hCoth : ∀ i2 j2, ¬ (ci = i2 ∧ j = j2) → stn stC i2 j2 = stn st i2 j2)
    (hCrows : ∀ i2, (stC.stations.getD i2 []).length =
      (st.stations.getD i2 []).length)
    (hCsq : stC.sysQueue = st.sysQueue)
    (hCpc : stC.pc = st.pc) (hCcyc : stC.cycle = st.cycle)
    (hCplen : stC.program.length = st.program.length)
    (hCissP : (instAt stC st.pc).issue = st.cycle)
    (hCissO : ∀ x, (instAt stC x).issue = (instAt st x).issue ∨
      (instAt stC x).issue = st.cycle)
    (hCissLt : ∀ x, 0 ≤ x → x < st.pc →
      (instAt stC x).issue = (instAt st x).issue)
    (hCcrash : stC.crash = st.crash) :
    CrashLe st (if (issueRename stC rd sid).crash.isSome then
      issueRename stC rd sid
      else issueQueues (issueRename stC rd sid) ci st.pc) ∧
    ((if (issueRename stC rd sid).crash.isSome then issueRename stC rd sid
      else issueQueues (issueRename stC rd sid) ci st.pc).crash = none →
      InvB (if (issueRename stC rd sid).crash.isSome then
        issueRename stC rd sid
        else issueQueues (issueRename stC rd sid) ci st.pc) (st.cycle + 1) ∧
      (if (issueRename stC rd sid).crash.isSome then issueRename stC rd sid
        else issueQueues (issueRename stC rd sid) ci st.pc).cycle =
        st.cycle) := by
  obtain ⟨hRst, hRpc, hRcyc, hRprog, hRsqm, hRcrash⟩ :=
    issueRename_fields stC rd sid
  have hstnR : ∀ i2 j2, stn (issueRename stC rd sid) i2 j2 = stn stC i2 j2 := by
    intro i2 j2
    unfold stn
    rw [hRst]
  have hIaR : ∀ x, instAt (issueRename stC rd sid) x = instAt stC x :=
    fun x => instAt_congr hRprog x
  have hCrashR : CrashLe st (issueRename stC rd sid) := by
    rcases hRcrash with h | h
    · exact Or.inl (h.trans hCcrash)
    · exact Or.inr h
  by_cases hcs : (issueRename stC rd sid).crash.isSome
  · rw [if_pos hcs]
    refine ⟨hCrashR, fun hn => ?_⟩
    rw [hn] at hcs
    simp at hcs
  · rw [if_neg hcs]
    obtain ⟨hInv, hcycF, hcrF⟩ :=
      issueFinish st (issueRename stC rd sid) ci j hI hpc0 hpc1 hjlen
        (by rw [hstnR]; exact hCbusy)
        (by rw [hstnR]; exact hCii)
        (by rw [hstnR]; exact hCrem)
        (by rw [hstnR]; exact hCcyE)
        (fun i2 j2 hp => (hstnR i2 j2).trans (hCoth i2 j2 hp))
        (fun i2 => by rw [hRst]; exact hCrows i2)
        (by rw [hRsqm, hCsq])
        (hRpc.trans hCpc) (hRcyc.trans hCcyc)
        (by rw [hRprog]; exact hCplen)
        (by rw [hIaR]; exact hCissP)
        (fun x => by rw [hIaR]; exact hCissO x)
        (fun x h0 hx => by rw [hIaR]; exact hCissLt x h0 hx)
    refine ⟨?_, fun _ => ⟨hInv, hcycF⟩⟩
    rcases hCrashR with h | h
    · exact Or.inl (hcrF.trans h)
    · exact Or.inr (hcrF.trans h)

/-- Placing an issued instruction into the free station `(ci, j)` keeps
the crash bound, and when no `IndexError` is raised it re-establishes
the invariant at the incremented cycle bound without touching the cycle
counter. -/
theorem issuePlace_pres (st : State) (inst : Instruction) (ci j : Nat)
    (hI : InvB st st.cycle) (hcr : st.crash = none)
    (hpc0 : 0 ≤ st.pc) (hpc1 : st.pc < (st.program.length : Int))
    (hff : firstFree (st.stations.getD ci []) 0 = some j) :
    CrashLe st (issuePlace st inst ci j) ∧
    ((issuePlace st inst ci j).crash = none →
      InvB (issuePlace st inst ci j) (st.cycle + 1) ∧
      (issuePlace st inst ci j).cycle = st.cycle) := by
  obtain ⟨hjlen, hjfree⟩ := firstFree_some hff
  have hciS : ci < st.stations.length := by
    by_contra hn
    have he : st.stations.getD ci [] = [] := by
      rw [List.getD_eq_getElem?_getD, List.getElem?_eq_none (Nat.le_of_not_lt hn)]
      rfl
    rw [he] at hjlen
    exact absurd hjlen (by simp)
  have hnorm : pyNorm st.program.length st.pc = some st.pc.toNat :=
    pyNorm_pos hpc0 hpc1
  have hst1 : modInst st st.pc (fun ins => { ins with issue := st.cycle }) =
      { st with program := st.program.modify (fun ins => { ins with issue := st.cycle }) st.pc.toNat } := by
    unfold modInst
    rw [hnorm]
  have hciA : ci < ({ st with program := st.program.modify (fun ins => { ins with issue := st.cycle }) st.pc.toNat } : State).stations.length := hciS
  have hjA : j < (({ st with program := st.program.modify (fun ins => { ins with issue := st.cycle }) st.pc.toNat } : State).stations.getD ci []).length := hjlen
  unfold issuePlace
  simp only []
  rw [hst1]
  split
  · refine ⟨Or.inr rfl, fun h => ?_⟩
    simp [crashIdx] at h
  · split
    · refine ⟨Or.inr rfl, fun h => ?_⟩
      simp [crashIdx] at h
    · refine issuePlace_finish st _ ci j inst.rd _ hI hpc0 hpc1 hjlen
        ?_ ?_ ?_ ?_ ?_ ?_ ?_ ?_ ?_ ?_ ?_ ?_ ?_ ?_
      · rw [stn_putStn3_self _ ci j _ _ _ hciA hjA]
      · rw [stn_putStn3_self _ ci j _ _ _ hciA hjA]
      · rw [stn_putStn3_self _ ci j _ _ _ hciA hjA]
        rfl
      · rw [stn_putStn3_self _ ci j _ _ _ hciA hjA]
        rfl
      · intro i2 j2 hp
        rw [stn_putStn3_ne _ ci j i2 j2 _ _ _ hp]
        rfl
      · intro i2
        rw [rows_putStn3]
      · rfl
      · rfl
      · rfl
      · show (st.program.modify (fun ins => { ins with issue := st.cycle })
          st.pc.toNat).length = st.program.length
        rw [List.length_modify]
      · have h := instAt_modInst_self_issue st st.pc st.cycle hnorm
        rw [hst1] at h
        exact h
      · intro x
        have h := instAt_modInst_cases st st.pc
          (fun ins => { ins with issue := st.cycle }) x
        rw [hst1] at h
        rcases h with h | h
        · exact Or.inl (congrArg Instruction.issue h)
        · exact Or.inr (congrArg Instruction.issue h)
      · intro x h0 hx
        have hne : pyNorm st.program.length x ≠
            pyNorm st.program.length st.pc ∨
            pyNorm st.program.length x = none := by
          left
          rw [pyNorm_pos h0 (lt_trans hx hpc1), hnorm]
          intro he
          have h2 := Option.some.inj he
          omega
        have h := instAt_modInst_ne st st.pc
          (fun ins => { ins with issue := st.cycle }) x hne
        rw [hst1] at h
        exact congrArg Instruction.issue h
      · rfl

/-- `Tomasulo.issue` keeps the crash bound and, when no `IndexError` is
raised, re-establishes the invariant at the incremented cycle bound
without touching the cycle counter. -/
theorem issueStep_pres (st : State) (hI : InvB st st.cycle)
    (hcr : st.crash = none)
    (hpc0 : 0 ≤ st.pc) (hpc1 : st.pc < (st.program.length : Int)) :
    CrashLe st (issueStep st) ∧
    ((issueStep st).crash = none →
      InvB (issueStep st) (st.cycle + 1) ∧ (issueStep st).cycle = st.cycle) := by
  have hlt : st.pc.toNat < st.program.length := by omega
  obtain ⟨inst, hinst⟩ : ∃ i2, pyGet st.program st.pc = some i2 := by
    rw [pyGet_pos hpc0 hpc1]
    exact ⟨_, List.getElem?_eq_getElem hlt⟩
  unfold issueStep
  rw [hinst, orCrash_some]
  simp only []
  split
  · exact ⟨CrashLe.crefl st, fun _ => ⟨InvB_mono hI (by omega), rfl⟩⟩
  · rename_i j2 hff2
    exact issuePlace_pres st inst _ j2 hI hcr hpc0 hpc1 hff2

theorem station_default_busy : (default : Station).busy = false := rfl

/-- A busy bank position is in range (out-of-range reads yield the
default, never-busy station record). -/
theorem stn_busy_bounds {st : State} {i j : Nat}
    (hb : (stn st i j).busy = true) :
    i < st.stations.length ∧ j < (st.stations.getD i []).length := by
  constructor
  · by_contra hn
    have he : st.stations.getD i [] = [] := by
      rw [List.getD_eq_getElem?_getD, List.getElem?_eq_none (Nat.le_of_not_lt hn)]
      rfl
    unfold stn at hb
    rw [he, show ([] : List Station).getD j default = default from rfl,
      station_default_busy] at hb
    cases hb
  · by_contra hn
    have he : (st.stations.getD i []).getD j default = default := by
      rw [List.getD_eq_getElem?_getD, List.getElem?_eq_none (Nat.le_of_not_lt hn)]
      rfl
    unfold stn at hb
    rw [he, station_default_busy] at hb
    cases hb

/-- `putStn` transport of the whole triple: the new record may keep the
station busy (then `remExec` must be unchanged) or free it. -/
theorem triple_putStn_rem {b st2 : State} {c : Int} (i j : Nat) (s' : Station)
    (h : Triple b st2 c)
    (hb : s'.busy = true → (stn st2 i j).busy = true)
    (hii : s'.instIndex = (stn st2 i j).instIndex)
    (hcy : s'.cyclesExec = (stn st2 i j).cyclesExec)
    (hre : s'.busy = true → s'.remExec = (stn st2 i j).remExec) :
    Triple b (putStn st2 i j s') c := by
  have hso := stepOk_putStn st2 i j s' hb hii hcy
  refine ⟨InvB_of_stepOk_rem h.1 hso ?_, h.2.1.trans hso,
    h.2.2.ctrans (crashLe_putStn st2 i j s')⟩
  intro i2 j2 hb2
  rcases stn_putStn st2 i j i2 j2 s' with he | ⟨rfl, rfl, he⟩
  · rw [he]
  · rw [he] at hb2 ⊢
    exact hre hb2

/-- A record update that keeps stations, speculation stack, PC, cycle
and program is a `StepOk` step. -/
theorem stepOk_fields {X X' : State} (hst : X'.stations = X.stations)
    (hsq : X'.sysQueue = X.sysQueue) (hpc : X'.pc = X.pc)
    (hcyc : X'.cycle = X.cycle) (hprog : X'.program = X.program) :
    StepOk X X' := by
  have hstn : ∀ i j, stn X' i j = stn X i j := by
    intro i j
    unfold stn
    rw [hst]
  refine ⟨hsq, hpc, hcyc, by rw [hprog], fun k => by rw [instAt_congr hprog],
    fun i => by rw [hst], fun i j hb => by rwa [hstn] at hb,
    fun i j => by rw [hstn]; exact ⟨rfl, rfl⟩⟩

/-- Triple transport along such a record update. -/
theorem triple_fields {b X : State} {c : Int} (X' : State) (h : Triple b X c)
    (hst : X'.stations = X.stations) (hsq : X'.sysQueue = X.sysQueue)
    (hpc : X'.pc = X.pc) (hcyc : X'.cycle = X.cycle)
    (hprog : X'.program = X.program)
    (hcrash : X'.crash = X.crash ∨ X'.crash = some Crash.indexError) :
    Triple b X' c := by
  have hso := stepOk_fields hst hsq hpc hcyc hprog
  refine ⟨InvB_of_stepOk_rem h.1 hso (fun i2 j2 _ => ?_), h.2.1.trans hso,
    h.2.2.ctrans hcrash⟩
  unfold stn
  rw [hst]

/-- What the selection scan of `Tomasulo.write` guarantees about its two
candidates: both are busy stations with finished execution, the STORE
candidate lives in the STORE row and the other candidate does not. -/
theorem writeSelect_spec (st : State) :
    (∀ i j, (writeSelect st).ws = some (i, j) →
      (stn st i j).busy = true ∧ (stn st i j).remExec = 0 ∧ i ≠ 1) ∧
    (∀ i j, (writeSelect st).wss = some (i, j) →
      (stn st i j).busy = true ∧ (stn st i j).remExec = 0 ∧ i = 1) := by
  unfold writeSelect
  refine foldBank_pres
    (P := fun acc : SelAcc =>
      (∀ i j, acc.ws = some (i, j) →
        (stn st i j).busy = true ∧ (stn st i j).remExec = 0 ∧ i ≠ 1) ∧
      (∀ i j, acc.wss = some (i, j) →
        (stn st i j).busy = true ∧ (stn st i j).remExec = 0 ∧ i = 1))
    st _ _ _ ?_ ?_
  · constructor <;> intro i j h <;> cases h
  · intro acc i j hP
    unfold selStep
    simp only []
    split_ifs with h1 h2 h3 h4
    · exact hP
    · refine ⟨hP.1, fun i2 j2 h => ?_⟩
      have h' : some (i, j) = some (i2, j2) := h
      injection h' with h''
      rw [Prod.mk.injEq] at h''
      obtain ⟨rfl, rfl⟩ := h''
      exact ⟨h1.1, h1.2.1, h4⟩
    · refine ⟨fun i2 j2 h => ?_, hP.2⟩
      have h' : some (i, j) = some (i2, j2) := h
      injection h' with h''
      rw [Prod.mk.injEq] at h''
      obtain ⟨rfl, rfl⟩ := h''
      exact ⟨h1.1, h1.2.1, h4⟩
    · exact hP
    · exact hP

theorem retireStore_pres (b : State) (c : Int) (hI : InvB b c)
    (o : Option (Nat × Nat)) : Triple b (retireStore b o) c := by
  cases o with
  | none => exact Triple.base hI
  | some p =>
    obtain ⟨i, j⟩ := p
    unfold retireStore
    simp only []
    unfold orCrash
    have h1 : Triple b { b with numWritten := b.numWritten + 1 } c :=
      triple_fields _ (Triple.base hI) rfl rfl rfl rfl rfl (Or.inl rfl)
    have h2 : Triple b (putStn { b with numWritten := b.numWritten + 1 } i j
        { stn b i j with busy := false }) c := by
      refine triple_putStn_rem i j _ h1 ?_ rfl rfl ?_
      · intro hb
        simp at hb
      · intro hb
        simp at hb
    have h3 := triple_modInst ((stn b i j).instIndex)
      (fun ins => { ins with write_back := b.cycle }) (fun ins => rfl) h2
    split
    · exact triple_crashIdx h3
    · exact triple_fields _ h3 rfl rfl rfl rfl rfl (Or.inl rfl)

/-- Relation maintained by the flush pass over the station bank: every
station is either untouched or merely freed, and everything except the
stations and the rename table is untouched. -/
def FlushRel (st b : State) : Prop :=
  (∀ i2 j2, stn b i2 j2 = stn st i2 j2 ∨
    stn b i2 j2 = { stn st i2 j2 with busy := false }) ∧
  b.program = st.program ∧ b.sysQueue = st.sysQueue ∧ b.pc = st.pc ∧
  b.cycle = st.cycle ∧ b.crash = st.crash ∧ b.lsq = st.lsq ∧
  (∀ i2, (b.stations.getD i2 []).length = (st.stations.getD i2 []).length)

theorem flushRel_refl (st : State) : FlushRel st st :=
  ⟨fun _ _ => Or.inl rfl, rfl, rfl, rfl, rfl, rfl, rfl, fun _ => rfl⟩

theorem flushRel_flushStn {st b : State} (w : Int) (i j : Nat)
    (h : FlushRel st b) : FlushRel st (flushStn b w i j) := by
  obtain ⟨hstn, hprog, hsq, hpc, hcyc, hcrash, hlsq, hrows⟩ := h
  unfold flushStn
  simp only []
  split_ifs with h1
  · refine ⟨?_, hprog, hsq, hpc, hcyc, hcrash, hlsq, ?_⟩
    · intro i2 j2
      show stn (putStn b i j { stn b i j with busy := false }) i2 j2 =
          stn st i2 j2 ∨
        stn (putStn b i j { stn b i j with busy := false }) i2 j2 =
          { stn st i2 j2 with busy := false }
      rcases stn_putStn b i j i2 j2 _ with he | ⟨rfl, rfl, he⟩
      · rw [he]
        exact hstn i2 j2
      · rw [he]
        right
        rcases hstn i j with h2 | h2
        · rw [h2]
        · rw [h2]
    · intro i2
      show ((putStn b i j { stn b i j with busy := false }).stations.getD
        i2 []).length = _
      rw [rows_putStn]
      exact hrows i2
  · exact ⟨hstn, hprog, hsq, hpc, hcyc, hcrash, hlsq, hrows⟩

theorem flushStn_busy_mono {b : State} {w : Int} {i j i2 j2 : Nat}
    (hb : (stn (flushStn b w i j) i2 j2).busy = true) :
    (stn b i2 j2).busy = true := by
  unfold flushStn at hb
  simp only [] at hb
  split_ifs at hb with h1
  · have hb' : (stn (putStn b i j { stn b i j with busy := false })
        i2 j2).busy = true := hb
    rcases stn_putStn b i j i2 j2 _ with he | ⟨rfl, rfl, he⟩
    · rwa [he] at hb'
    · rw [he] at hb'
      simp at hb'
  · exact hb

theorem foldl_busy_mono {α : Type} (f : State → α → State)
    (hf : ∀ b a i2 j2, (stn (f b a) i2 j2).busy = true →
      (stn b i2 j2).busy = true)
    (l : List α) (b : State) (i2 j2 : Nat)
    (hb : (stn (l.foldl f b) i2 j2).busy = true) :
    (stn b i2 j2).busy = true := by
  induction l generalizing b with
  | nil => exact hb
  | cons x xs ih => exact hf b x i2 j2 (ih (f b x) hb)

/-- Kill property of one row pass of the flush: a station of the row
that is still busy after the pass did not issue after the flushing
instruction. -/
theorem rowFlush_kill (st : State) (w : Int) (i : Nat) :
    ∀ (n : Nat) (b : State), FlushRel st b →
      ∀ j2, j2 < n →
        (stn ((List.range n).foldl (fun b2 j => flushStn b2 w i j) b)
          i j2).busy = true →
        ¬ (instAt st (stn st i j2).instIndex).issue > w := by
  intro n
  induction n with
  | zero =>
    intro b hR j2 hj2
    exact absurd hj2 (by omega)
  | succ n ih =>
    intro b hR j2 hj2 hb
    rw [List.range_succ, List.foldl_append, List.foldl_cons,
      List.foldl_nil] at hb
    by_cases hcase : j2 < n
    · exact ih b hR j2 hcase (flushStn_busy_mono hb)
    · have hj2n : j2 = n := by omega
      subst hj2n
      have hRrel : FlushRel st
          ((List.range j2).foldl (fun b2 j => flushStn b2 w i j) b) :=
        foldl_pres _ _ _ hR (fun b2 a h2 => flushRel_flushStn w i a h2)
      set R := (List.range j2).foldl (fun b2 j => flushStn b2 w i j) b
        with hRdef
      unfold flushStn at hb
      simp only [] at hb
      split_ifs at hb with h1
      · exfalso
        have hb' : (stn (putStn R i j2 { stn R i j2 with busy := false })
            i j2).busy = true := hb
        obtain ⟨hbi, hbj⟩ := stn_busy_bounds h1.1
        rw [stn_putStn_self R i j2 _ hbi hbj] at hb'
        simp at hb'
      · intro hgt
        rcases hRrel.1 i j2 with h2 | h2
        · refine h1 ⟨?_, ?_⟩
          · exact hb
          · rw [instAt_congr hRrel.2.1, h2]
            exact hgt
        · rw [h2] at hb
          simp at hb

/-- Kill property of the full flush pass over the given category rows. -/
theorem catsFlush_kill (st : State) (w : Int) :
    ∀ (cats : List Nat) (b : State), FlushRel st b →
      ∀ i2 j2, i2 ∈ cats → j2 < (st.stations.getD i2 []).length →
        (stn (cats.foldl (fun b3 i =>
          (List.range (st.stations.getD i []).length).foldl
            (fun b2 j => flushStn b2 w i j) b3) b) i2 j2).busy = true →
        ¬ (instAt st (stn st i2 j2).instIndex).issue > w := by
  intro cats
  induction cats with
  | nil =>
    intro b hR i2 j2 hmem
    exact absurd hmem (List.not_mem_nil i2)
  | cons i rest ih =>
    intro b hR i2 j2 hmem hj2 hb
    rw [List.foldl_cons] at hb
    rcases List.mem_cons.mp hmem with rfl | hmem2
    · have hbrow : (stn ((List.range (st.stations.getD i2 []).length).foldl
          (fun b2 j => flushStn b2 w i2 j) b) i2 j2).busy = true := by
        refine foldl_busy_mono _ ?_ rest _ i2 j2 hb
        intro b3 a i3 j3 hb3
        exact foldl_busy_mono _ (fun b4 a2 i4 j4 h4 => flushStn_busy_mono h4)
          _ _ i3 j3 hb3
      exact rowFlush_kill st w i2 _ b hR j2 hj2 hbrow
    · exact ih _ (foldl_pres _ _ _ hR
        (fun b2 a h2 => flushRel_flushStn w i a h2)) i2 j2 hmem2 hj2 hb

/-- The two facts about the station pass of
`_flush_instructions_after_jump`: the frame relation, and that every
surviving busy station in a scanned row did not issue after the
flushing instruction. -/
theorem flushStations_spec (st : State) (w : Int) :
    FlushRel st (flushStations st w) ∧
    (∀ i2 j2, i2 ∈ [0, 1, 2, 3, 4, 5, 6] →
      j2 < (st.stations.getD i2 []).length →
      (stn (flushStations st w) i2 j2).busy = true →
      ¬ (instAt st (stn st i2 j2).instIndex).issue > w) := by
  constructor
  · unfold flushStations
    exact foldBank_pres (P := fun b2 => FlushRel st b2) st _ _ _
      (flushRel_refl st) (fun b2 i j h2 => flushRel_flushStn w i j h2)
  · unfold flushStations foldBank
    exact catsFlush_kill st w [0, 1, 2, 3, 4, 5, 6] st (flushRel_refl st)

/-- After clearing the speculation stack and running the flush pass of a
taken branch or jump whose every surviving control station would be
younger than the retiree (which is impossible), the invariant holds:
the stack is empty and no control station stays busy. -/
theorem clearFlush_pres (b X : State) (c : Int) (w : Station) (hI : InvB b c)
    (hXq : X.sysQueue = [])
    (hiss : ∀ x, (instAt X x).issue = (instAt b x).issue)
    (hXcyc : X.cycle = b.cycle)
    (hXrows : ∀ i2, (X.stations.getD i2 []).length =
      (b.stations.getD i2 []).length)
    (hXstn : ∀ i2 j2, stn X i2 j2 = stn b i2 j2 ∨ (stn X i2 j2).busy = false)
    (hXcyE : ∀ i2 j2, (stn X i2 j2).cyclesExec = (stn b i2 j2).cyclesExec)
    (hkill : ∀ i2 j2, ctrlIdx i2 → (stn X i2 j2).busy = true →
      (instAt X w.instIndex).issue < (instAt X (stn X i2 j2).instIndex).issue) :
    InvB (flushAfterJump X w) c ∧
    (flushAfterJump X w).cycle = X.cycle ∧
    (flushAfterJump X w).crash = X.crash := by
  obtain ⟨hRel, hkillR⟩ := flushStations_spec X ((instAt X w.instIndex).issue)
  obtain ⟨hRstn, hRprog, hRsq, hRpc, hRcyc, hRcrash, hRlsq, hRrows⟩ := hRel
  unfold flushAfterJump
  simp only []
  suffices hR : InvB (flushStations X ((instAt X w.instIndex).issue)) c by
    exact ⟨InvB_of_stepOk_rem hR (stepOk_fields rfl rfl rfl rfl rfl)
      (fun _ _ _ => rfl), hRcyc, hRcrash⟩
  have hstnRX2 : ∀ i2 j2,
      (stn (flushStations X ((instAt X w.instIndex).issue)) i2 j2).busy = true →
      stn (flushStations X ((instAt X w.instIndex).issue)) i2 j2 =
        stn X i2 j2 ∧ (stn X i2 j2).busy = true := by
    intro i2 j2 hb2
    rcases hRstn i2 j2 with h2 | h2
    · exact ⟨h2, h2 ▸ hb2⟩
    · rw [h2] at hb2
      simp at hb2
  have hIssR : ∀ x,
      (instAt (flushStations X ((instAt X w.instIndex).issue)) x).issue =
        (instAt b x).issue := by
    intro x
    rw [instAt_congr hRprog, hiss]
  have hcyER : ∀ i2 j2,
      (stn (flushStations X ((instAt X w.instIndex).issue)) i2 j2).cyclesExec =
        (stn b i2 j2).cyclesExec := by
    intro i2 j2
    rcases hRstn i2 j2 with h2 | h2 <;> rw [h2] <;> exact hXcyE i2 j2
  have hnoCtrl : ∀ i2 j2, ctrlIdx i2 →
      (stn (flushStations X ((instAt X w.instIndex).issue)) i2 j2).busy = true →
      False := by
    intro i2 j2 hc2 hb2
    obtain ⟨heq, hbX⟩ := hstnRX2 i2 j2 hb2
    have hbnd := (stn_busy_bounds hbX).2
    have hmem7 : i2 ∈ [0, 1, 2, 3, 4, 5, 6] := by
      rcases hc2 with rfl | rfl <;> simp
    exact hkillR i2 j2 hmem7 hbnd hb2 (hkill i2 j2 hc2 hbX)
  have hqnil : qIss (flushStations X ((instAt X w.instIndex).issue)) = [] := by
    unfold qIss
    rw [hRsq, hXq]
    rfl
  refine ⟨?_, ?_, ?_, ?_, ?_, ?_, ?_, ?_, ?_⟩
  · rw [hRcyc, hXcyc]
    exact hI.cyc
  · intro i2 j2 hc2 hl2
    rw [hRrows, hXrows] at hl2
    rw [hcyER]
    exact hI.latC i2 j2 hc2 hl2
  · intro i2 j2 hb2
    obtain ⟨heq, hbX⟩ := hstnRX2 i2 j2 hb2
    rcases hXstn i2 j2 with h2 | h2
    · have hbb : (stn b i2 j2).busy = true := h2 ▸ hbX
      unfold issOf
      rw [hIssR, heq, h2]
      have hB := hI.busyB i2 j2 hbb
      unfold issOf at hB
      exact hB
    · rw [h2] at hbX
      simp at hbX
  · intro i2 j2 hc2 hb2
    exact (hnoCtrl i2 j2 hc2 hb2).elim
  · intro t ht
    rw [hqnil] at ht
    exact absurd ht (List.not_mem_nil t)
  · rw [hqnil]
    exact List.chain'_nil
  · intro i2 j2 hc2 hb2
    exact (hnoCtrl i2 j2 hc2 hb2).elim
  · intro i2 j2 i3 j3 hc2 hc3 hb2 hb3 he
    exact (hnoCtrl i2 j2 hc2 hb2).elim
  · intro i2 j2 hc2 hb2 h0
    exact (hnoCtrl i2 j2 hc2 hb2).elim

theorem regWriteLoop_triple {b Y : State} {c : Int} (sid : Nat) (res : Int)
    (h : Triple b Y c) : Triple b (regWriteLoop Y sid res) c := by
  unfold regWriteLoop
  refine foldl_pres (P := fun b2 => Triple b b2 c) _ _ _ h (fun b2 k h2 => ?_)
  split_ifs with h1
  · exact triple_fields _ h2 rfl rfl rfl rfl rfl (Or.inl rfl)
  · exact h2

/-- One leaf of the broadcast step: writing a record with unchanged
identity fields over a frame-equivalent state. -/
theorem bcast_leaf {b b2 M : State} {c : Int} (i j : Nat) (S : Station)
    (hM : Triple b M c)
    (hstnM : ∀ i2 j2, stn M i2 j2 = stn b2 i2 j2)
    (hSb : S.busy = (stn b2 i j).busy)
    (hSii : S.instIndex = (stn b2 i j).instIndex)
    (hScy : S.cyclesExec = (stn b2 i j).cyclesExec)
    (hSre : S.remExec = (stn b2 i j).remExec) :
    Triple b (putStn M i j S) c := by
  refine triple_putStn_rem i j S hM ?_ ?_ ?_ ?_
  · intro hb
    rw [hstnM]
    rw [hSb] at hb
    exact hb
  · rw [hstnM]
    exact hSii
  · rw [hstnM]
    exact hScy
  · intro hb
    rw [hstnM]
    exact hSre

set_option maxHeartbeats 1000000 in
theorem broadcastStn_pres (st : State) (w : Station) (wid : Nat)
    {b b2 : State} {c : Int} (i j : Nat) (h : Triple b b2 c) :
    Triple b (broadcastStn st w wid b2 i j) c := by
  unfold broadcastStn
  simp only []
  split_ifs with h1 h2 h3 h4 h5
  all_goals first
    | exact bcast_leaf i j _ h (fun i2 j2 => rfl) rfl rfl rfl rfl
    | exact bcast_leaf i j _ (triple_modInst _ _ (fun ins => rfl) h)
        (fun i2 j2 => stn_modInst _ _ _ i2 j2) rfl rfl rfl rfl
    | exact bcast_leaf i j _
        (triple_modInst _ _ (fun ins => rfl)
          (triple_modInst _ _ (fun ins => rfl) h))
        (fun i2 j2 => (stn_modInst _ _ _ i2 j2).trans (stn_modInst _ _ _ i2 j2))
        rfl rfl rfl rfl
    | exact h

theorem broadcastResult_triple {b Y : State} {c : Int} (w : Station)
    (wid : Nat) (h : Triple b Y c) : Triple b (broadcastResult Y w wid) c := by
  unfold broadcastResult
  exact foldBank_pres (P := fun b2 => Triple b b2 c) Y _ _ _ h
    (fun b2 i j h2 => broadcastStn_pres Y w wid i j h2)

/-- The not-taken restore: popping the front snapshot after freeing the
retiring control station `(i, j)` (which owned it) keeps the
invariant. -/
theorem popRestore_pres (Y st3 : State) (c : Int) (i j : Nat)
    (hI : InvB Y c) (hctrl : ctrlIdx i)
    (hbusy : (stn Y i j).busy = true) (hrem0 : (stn Y i j).remExec = 0)
    (hSO : StepOk Y st3) (hfree : (stn st3 i j).busy = false)
    (hoth : ∀ i2 j2, ¬ (i = i2 ∧ j = j2) → stn st3 i2 j2 = stn Y i2 j2)
    (Z : State) (sn : Snap) (rest : List Snap)
    (hq : Y.sysQueue = sn :: rest)
    (hZst : Z.stations = st3.stations) (hZprog : Z.program = st3.program)
    (hZpc : Z.pc = st3.pc) (hZcyc : Z.cycle = st3.cycle)
    (hZq : Z.sysQueue = rest) :
    InvB Z c := by
  have hstnZ : ∀ i2 j2, stn Z i2 j2 = stn st3 i2 j2 := by
    intro i2 j2
    unfold stn
    rw [hZst]
  have hiss : ∀ x, (instAt Z x).issue = (instAt Y x).issue := by
    intro x
    rw [instAt_congr hZprog]
    exact hSO.iss x
  have hissOf : ∀ i2 j2, ¬ (i = i2 ∧ j = j2) →
      issOf Z (stn Z i2 j2) = issOf Y (stn Y i2 j2) := by
    intro i2 j2 hp
    unfold issOf
    rw [hstnZ, hoth i2 j2 hp, hiss]
  have hbusyZ : ∀ i2 j2, (stn Z i2 j2).busy = true →
      ¬ (i = i2 ∧ j = j2) ∧ (stn Y i2 j2).busy = true := by
    intro i2 j2 hb2
    by_cases hp : i = i2 ∧ j = j2
    · obtain ⟨rfl, rfl⟩ := hp
      exfalso
      rw [hstnZ] at hb2
      rw [hfree] at hb2
      cases hb2
    · refine ⟨hp, ?_⟩
      rw [hstnZ, hoth i2 j2 hp] at hb2
      exact hb2
  have hsnIss : sn.issue = issOf Y (stn Y i j) := by
    have hhd := hI.hd i j hctrl hbusy hrem0
    unfold qIss at hhd
    rw [hq] at hhd
    simp only [List.map_cons, List.head?_cons, Option.some.injEq] at hhd
    exact hhd
  have hqY : qIss Y = sn.issue :: rest.map Snap.issue := by
    unfold qIss
    rw [hq]
    rfl
  have hqZ : qIss Z = rest.map Snap.issue := by
    unfold qIss
    rw [hZq]
  refine ⟨?_, ?_, ?_, ?_, ?_, ?_, ?_, ?_, ?_⟩
  · rw [hZcyc, hSO.cyc]
    exact hI.cyc
  · intro i2 j2 hc2 hl2
    rw [hZst, hSO.rows i2] at hl2
    rw [hstnZ, (hSO.fields i2 j2).2]
    exact hI.latC i2 j2 hc2 hl2
  · intro i2 j2 hb2
    obtain ⟨hp, hbY⟩ := hbusyZ i2 j2 hb2
    rw [hissOf i2 j2 hp]
    exact hI.busyB i2 j2 hbY
  · intro i2 j2 hc2 hb2
    obtain ⟨hp, hbY⟩ := hbusyZ i2 j2 hb2
    rw [hstnZ, hoth i2 j2 hp, hZpc, hSO.pc, hZprog, hSO.plen]
    exact hI.ctrlG i2 j2 hc2 hbY
  · intro t ht
    rw [hqZ] at ht
    have hmem : t ∈ qIss Y := by
      rw [hqY]
      exact List.mem_cons_of_mem _ ht
    exact hI.snapB t hmem
  · have hs := hI.sorted
    rw [hqY] at hs
    rw [hqZ]
    exact (List.chain'_cons'.mp hs).2
  · intro i2 j2 hc2 hb2
    obtain ⟨hp, hbY⟩ := hbusyZ i2 j2 hb2
    rw [hissOf i2 j2 hp, hqZ]
    have hmem := hI.mem i2 j2 hc2 hbY
    rw [hqY] at hmem
    rcases List.mem_cons.mp hmem with heq | htail
    · exfalso
      apply hp
      refine hI.dist i j i2 j2 hctrl hc2 hbusy hbY ?_
      exact hsnIss.symm.trans heq.symm
    · exact htail
  · intro i2 j2 i3 j3 hc2 hc3 hb2 hb3 he
    obtain ⟨hp2, hbY2⟩ := hbusyZ i2 j2 hb2
    obtain ⟨hp3, hbY3⟩ := hbusyZ i3 j3 hb3
    rw [hissOf i2 j2 hp2, hissOf i3 j3 hp3] at he
    exact hI.dist i2 j2 i3 j3 hc2 hc3 hbY2 hbY3 he
  · intro i2 j2 hc2 hb2 h0
    obtain ⟨hp, hbY⟩ := hbusyZ i2 j2 hb2
    have h0Y : (stn Y i2 j2).remExec = 0 := by
      rw [hstnZ, hoth i2 j2 hp] at h0
      exact h0
    have hhd2 := hI.hd i2 j2 hc2 hbY h0Y
    exfalso
    apply hp
    refine hI.dist i j i2 j2 hctrl hc2 hbusy hbY ?_
    rw [hqY] at hhd2
    simp only [List.head?_cons, Option.some.injEq] at hhd2
    exact hsnIss.symm.trans hhd2

/-- Clearing the speculation stack and flushing after the retirement of
the control station `(i, j)` (the oldest speculated instruction) keeps
the invariant: every other busy control station issued later and is
flushed. -/
theorem clearFlushFrom (Y st3 X : State) (c : Int) (i j : Nat)
    (hI : InvB Y c) (hctrl : ctrlIdx i)
    (hbusy : (stn Y i j).busy = true) (hrem0 : (stn Y i j).remExec = 0)
    (hSO : StepOk Y st3) (hfree : (stn st3 i j).busy = false)
    (hoth : ∀ i2 j2, ¬ (i = i2 ∧ j = j2) → stn st3 i2 j2 = stn Y i2 j2)
    (s : Station) (hs : s = stn Y i j)
    (hXq : X.sysQueue = []) (hXst : X.stations = st3.stations)
    (hXprog : X.program = st3.program) (hXcyc : X.cycle = st3.cycle) :
    InvB (flushAfterJump X s) c ∧ (flushAfterJump X s).cycle = Y.cycle ∧
    (flushAfterJump X s).crash = X.crash := by
  have hstnX : ∀ i2 j2, stn X i2 j2 = stn st3 i2 j2 := by
    intro i2 j2
    unfold stn
    rw [hXst]
  have hiss : ∀ x, (instAt X x).issue = (instAt Y x).issue := by
    intro x
    rw [instAt_congr hXprog]
    exact hSO.iss x
  have hXstn : ∀ i2 j2, stn X i2 j2 = stn Y i2 j2 ∨
      (stn X i2 j2).busy = false := by
    intro i2 j2
    by_cases hp : i = i2 ∧ j = j2
    · obtain ⟨rfl, rfl⟩ := hp
      right
      rw [hstnX]
      exact hfree
    · left
      rw [hstnX]
      exact hoth i2 j2 hp
  have hXcyE : ∀ i2 j2, (stn X i2 j2).cyclesExec =
      (stn Y i2 j2).cyclesExec := by
    intro i2 j2
    rw [hstnX]
    exact (hSO.fields i2 j2).2
  have hkill : ∀ i2 j2, ctrlIdx i2 → (stn X i2 j2).busy = true →
      (instAt X s.instIndex).issue <
        (instAt X (stn X i2 j2).instIndex).issue := by
    intro i2 j2 hc2 hbX
    have hp : ¬ (i = i2 ∧ j = j2) := by
      rintro ⟨rfl, rfl⟩
      rw [hstnX] at hbX
      rw [hfree] at hbX
      cases hbX
    have hXeq : stn X i2 j2 = stn Y i2 j2 := (hstnX i2 j2).trans (hoth i2 j2 hp)
    have hbY : (stn Y i2 j2).busy = true := hXeq ▸ hbX
    have hhd := hI.hd i j hctrl hbusy hrem0
    have hmemq := hI.mem i2 j2 hc2 hbY
    cases hqY : qIss Y with
    | nil =>
      rw [hqY] at hhd
      simp at hhd
    | cons a t =>
      rw [hqY] at hhd
      simp only [List.head?_cons, Option.some.injEq] at hhd
      have hle : a ≤ issOf Y (stn Y i2 j2) := sorted_head_le hI.sorted hqY hmemq
      have hne : issOf Y (stn Y i j) ≠ issOf Y (stn Y i2 j2) := by
        intro he
        exact hp (hI.dist i j i2 j2 hctrl hc2 hbusy hbY he)
      have hlt : issOf Y (stn Y i j) < issOf Y (stn Y i2 j2) := by omega
      rw [hs, hXeq]
      simp only [hiss]
      unfold issOf at hlt
      exact hlt
  obtain ⟨hInv, hcyc2, hcrash2⟩ := clearFlush_pres Y X c s hI hXq hiss
    (hXcyc.trans hSO.cyc) (fun i2 => by rw [hXst]; exact hSO.rows i2)
    hXstn hXcyE hkill
  exact ⟨hInv, hcyc2.trans (hXcyc.trans hSO.cyc), hcrash2⟩

/-- `Tomasulo.write`, JUMP retirement actions: invariant preservation. -/
theorem retireJump_pres (Y st3 : State) (c : Int) (i j : Nat)
    (hI : InvB Y c) (hctrl : ctrlIdx i)
    (hbusy : (stn Y i j).busy = true) (hrem0 : (stn Y i j).remExec = 0)
    (hSO : StepOk Y st3) (hfree : (stn st3 i j).busy = false)
    (hoth : ∀ i2 j2, ¬ (i = i2 ∧ j = j2) → stn st3 i2 j2 = stn Y i2 j2) :
    InvB (retireJump st3 (stn Y i j)) c ∧
    (retireJump st3 (stn Y i j)).cycle = Y.cycle ∧
    (retireJump st3 (stn Y i j)).crash = st3.crash := by
  unfold retireJump
  simp only []
  split_ifs with hop
  · exact clearFlushFrom Y st3 _ c i j hI hctrl hbusy hrem0 hSO hfree hoth
      _ rfl rfl rfl rfl rfl
  · exact clearFlushFrom Y st3 _ c i j hI hctrl hbusy hrem0 hSO hfree hoth
      _ rfl rfl rfl rfl rfl

/-- `Tomasulo.write`, BEQ retirement actions: invariant preservation and
in particular the not-taken restore cannot raise `emptyRestore`,
because the retiring BEQ owns the front snapshot. -/
theorem retireBeq_pres (Y st3 : State) (c : Int) (i j : Nat)
    (hI : InvB Y c) (hctrl : ctrlIdx i)
    (hbusy : (stn Y i j).busy = true) (hrem0 : (stn Y i j).remExec = 0)
    (hSO : StepOk Y st3) (hfree : (stn st3 i j).busy = false)
    (hoth : ∀ i2 j2, ¬ (i = i2 ∧ j = j2) → stn st3 i2 j2 = stn Y i2 j2) :
    InvB (retireBeq st3 (stn Y i j)) c ∧
    (retireBeq st3 (stn Y i j)).cycle = Y.cycle ∧
    (retireBeq st3 (stn Y i j)).crash = st3.crash := by
  unfold retireBeq
  simp only []
  split_ifs with hres
  · exact clearFlushFrom Y st3 _ c i j hI hctrl hbusy hrem0 hSO hfree hoth
      _ rfl rfl rfl rfl rfl
  · split
    · exfalso
      rename_i hnil
      have hq0 : Y.sysQueue = [] := by
        rw [← hSO.sq]
        exact hnil
      have hmem := hI.mem i j hctrl hbusy
      rw [show qIss Y = [] from by unfold qIss; rw [hq0]; rfl] at hmem
      exact absurd hmem (List.not_mem_nil _)
    · rename_i sn rest hcons
      have hq : Y.sysQueue = sn :: rest := by
        rw [← hSO.sq]
        exact hcons
      refine ⟨popRestore_pres Y st3 c i j hI hctrl hbusy hrem0 hSO hfree hoth
        _ sn rest hq rfl rfl rfl rfl rfl, ?_, ?_⟩
      · exact hSO.cyc
      · rfl

/-- Retiring the selected non-STORE station preserves the invariant,
never raises `emptyRestore`, and leaves the cycle counter alone. -/
theorem retireNonStore_pres (Y : State) (c : Int) (hI : InvB Y c)
    (o : Option (Nat × Nat))
    (hsel : ∀ i j, o = some (i, j) →
      (stn Y i j).busy = true ∧ (stn Y i j).remExec = 0) :
    (retireNonStore Y o).cycle = Y.cycle ∧
    ((retireNonStore Y o).crash = Y.crash ∨
      (retireNonStore Y o).crash = some Crash.indexError) ∧
    ((retireNonStore Y o).crash = none → InvB (retireNonStore Y o) c) := by
  cases o with
  | none => exact ⟨rfl, Or.inl rfl, fun _ => hI⟩
  | some p =>
    obtain ⟨i, j⟩ := p
    obtain ⟨hbusy, hrem0⟩ := hsel i j rfl
    obtain ⟨hbi, hbj⟩ := stn_busy_bounds hbusy
    have hbi' : i < ({ Y with numWritten := Y.numWritten + 1 } : State).stations.length := hbi
    have hbj' : j < (({ Y with numWritten := Y.numWritten + 1 } : State).stations.getD i []).length := hbj
    unfold retireNonStore
    simp only []
    have h1 : Triple Y { Y with numWritten := Y.numWritten + 1 } c :=
      triple_fields _ (Triple.base hI) rfl rfl rfl rfl rfl (Or.inl rfl)
    have h2 : Triple Y (putStn { Y with numWritten := Y.numWritten + 1 } i j
        { stn Y i j with busy := false }) c := by
      refine triple_putStn_rem i j _ h1 ?_ rfl rfl ?_ <;> intro hb <;> simp at hb
    have h3 : Triple Y (modInst (putStn { Y with numWritten := Y.numWritten + 1 } i j { stn Y i j with busy := false }) ((stn Y i j).instIndex) (fun ins => { ins with write_back := Y.cycle })) c :=
      triple_modInst _ _ (fun ins => rfl) h2
    have hfree3 : (stn (modInst (putStn { Y with numWritten := Y.numWritten + 1 } i j { stn Y i j with busy := false }) ((stn Y i j).instIndex) (fun ins => { ins with write_back := Y.cycle })) i j).busy = false := by
      rw [stn_modInst, stn_putStn_self _ i j _ hbi' hbj']
    have hoth3 : ∀ i2 j2, ¬ (i = i2 ∧ j = j2) → stn (modInst (putStn { Y with numWritten := Y.numWritten + 1 } i j { stn Y i j with busy := false }) ((stn Y i j).instIndex) (fun ins => { ins with write_back := Y.cycle })) i2 j2 = stn Y i2 j2 := by
      intro i2 j2 hp
      rw [stn_modInst, stn_putStn_ne _ _ _ _ _ _ hp]
      rfl
    by_cases hi3 : i = 3
    · rw [if_pos hi3]
      obtain ⟨hJ1, hJ2, hJ3⟩ := retireJump_pres Y
        (modInst (putStn { Y with numWritten := Y.numWritten + 1 } i j { stn Y i j with busy := false }) ((stn Y i j).instIndex) (fun ins => { ins with write_back := Y.cycle }))
        c i j hI (Or.inr hi3) hbusy hrem0 h3.2.1 hfree3 hoth3
      have hcrJ : (retireJump (modInst (putStn { Y with numWritten := Y.numWritten + 1 } i j { stn Y i j with busy := false }) ((stn Y i j).instIndex) (fun ins => { ins with write_back := Y.cycle })) (stn Y i j)).crash = Y.crash ∨ (retireJump (modInst (putStn { Y with numWritten := Y.numWritten + 1 } i j { stn Y i j with busy := false }) ((stn Y i j).instIndex) (fun ins => { ins with write_back := Y.cycle })) (stn Y i j)).crash = some Crash.indexError := by
        rw [hJ3]
        exact h3.2.2
      by_cases hcs : (retireJump (modInst (putStn { Y with numWritten := Y.numWritten + 1 } i j { stn Y i j with busy := false }) ((stn Y i j).instIndex) (fun ins => { ins with write_back := Y.cycle })) (stn Y i j)).crash.isSome
      · rw [if_pos hcs]
        exact ⟨hJ2, hcrJ, fun _ => hJ1⟩
      · rw [if_neg hcs]
        have hne12 : i ≠ 1 ∧ i ≠ 2 := by omega
        rw [if_pos hne12]
        have hT4 := broadcastResult_triple (stn Y i j) ((stn Y i j).id)
          (regWriteLoop_triple ((stn Y i j).id) ((stn Y i j).result)
            (Triple.base hJ1))
        refine ⟨?_, ?_, fun _ => hT4.1⟩
        · rw [hT4.2.1.cyc]
          exact hJ2
        · rcases hT4.2.2 with hcc | hcc
          · rw [hcc]
            exact hcrJ
          · exact Or.inr hcc
    · rw [if_neg hi3]
      by_cases hi2 : i = 2
      · rw [if_pos hi2]
        obtain ⟨hB1, hB2, hB3⟩ := retireBeq_pres Y
          (modInst (putStn { Y with numWritten := Y.numWritten + 1 } i j { stn Y i j with busy := false }) ((stn Y i j).instIndex) (fun ins => { ins with write_back := Y.cycle }))
          c i j hI (Or.inl hi2) hbusy hrem0 h3.2.1 hfree3 hoth3
        have hcrB : (retireBeq (modInst (putStn { Y with numWritten := Y.numWritten + 1 } i j { stn Y i j with busy := false }) ((stn Y i j).instIndex) (fun ins => { ins with write_back := Y.cycle })) (stn Y i j)).crash = Y.crash ∨ (retireBeq (modInst (putStn { Y with numWritten := Y.numWritten + 1 } i j { stn Y i j with busy := false }) ((stn Y i j).instIndex) (fun ins => { ins with write_back := Y.cycle })) (stn Y i j)).crash = some Crash.indexError := by
          rw [hB3]
          exact h3.2.2
        by_cases hcs : (retireBeq (modInst (putStn { Y with numWritten := Y.numWritten + 1 } i j { stn Y i j with busy := false }) ((stn Y i j).instIndex) (fun ins => { ins with write_back := Y.cycle })) (stn Y i j)).crash.isSome
        · rw [if_pos hcs]
          exact ⟨hB2, hcrB, fun _ => hB1⟩
        · rw [if_neg hcs]
          have hne12 : ¬ (i ≠ 1 ∧ i ≠ 2) := by omega
          rw [if_neg hne12]
          exact ⟨hB2, hcrB, fun _ => hB1⟩
      · rw [if_neg hi2]
        by_cases hcs : (modInst (putStn { Y with numWritten := Y.numWritten + 1 } i j { stn Y i j with busy := false }) ((stn Y i j).instIndex) (fun ins => { ins with write_back := Y.cycle })).crash.isSome
        · rw [if_pos hcs]
          exact ⟨h3.2.1.cyc, h3.2.2, fun _ => h3.1⟩
        · rw [if_neg hcs]
          by_cases hne12 : i ≠ 1 ∧ i ≠ 2
          · rw [if_pos hne12]
            have hT4 := broadcastResult_triple (stn Y i j) ((stn Y i j).id)
              (regWriteLoop_triple ((stn Y i j).id) ((stn Y i j).result) h3)
            exact ⟨hT4.2.1.cyc, hT4.2.2, fun _ => hT4.1⟩
          · rw [if_neg hne12]
            exact ⟨h3.2.1.cyc, h3.2.2, fun _ => h3.1⟩

/-- `retireStore` only writes a station in the STORE row, so stations
of other rows are untouched. -/
theorem retireStore_stn_ne (b : State) (o : Option (Nat × Nat))
    (ho : ∀ i2 j2, o = some (i2, j2) → i2 = 1) (i j : Nat) (hne : i ≠ 1) :
    stn (retireStore b o) i j = stn b i j := by
  cases o with
  | none => rfl
  | some p =>
    obtain ⟨i2, j2⟩ := p
    have h1 : i2 = 1 := ho i2 j2 rfl
    have hp : ¬ (i2 = i ∧ j2 = j) := by
      rintro ⟨he, _⟩
      exact hne (he ▸ h1)
    unfold retireStore
    simp only []
    unfold orCrash
    split
    · show stn (modInst (putStn { b with numWritten := b.numWritten + 1 } i2 j2 { stn b i2 j2 with busy := false }) ((stn b i2 j2).instIndex) (fun ins => { ins with write_back := b.cycle })) i j = stn b i j
      rw [stn_modInst, stn_putStn_ne _ _ _ _ _ _ hp]
      rfl
    · show stn (modInst (putStn { b with numWritten := b.numWritten + 1 } i2 j2 { stn b i2 j2 with busy := false }) ((stn b i2 j2).instIndex) (fun ins => { ins with write_back := b.cycle })) i j = stn b i j
      rw [stn_modInst, stn_putStn_ne _ _ _ _ _ _ hp]
      rfl

/-- `Tomasulo.write` preserves the invariant, never raises
`emptyRestore`, and leaves the cycle counter alone. -/
theorem writeStep_pres (b : State) (c : Int) (hI : InvB b c) :
    (writeStep b).cycle = b.cycle ∧
    ((writeStep b).crash = b.crash ∨
      (writeStep b).crash = some Crash.indexError) ∧
    ((writeStep b).crash = none → InvB (writeStep b) c) := by
  unfold writeStep
  simp only []
  by_cases hcs : b.crash.isSome
  · rw [if_pos hcs]
    exact ⟨rfl, Or.inl rfl, fun _ => hI⟩
  · rw [if_neg hcs]
    obtain ⟨hws, hwss⟩ := writeSelect_spec b
    have hT1 : Triple b (retireStore b (writeSelect b).wss) c :=
      retireStore_pres b c hI _
    by_cases hcs1 : (retireStore b (writeSelect b).wss).crash.isSome
    · rw [if_pos hcs1]
      exact ⟨hT1.2.1.cyc, hT1.2.2, fun _ => hT1.1⟩
    · rw [if_neg hcs1]
      have hsel1 : ∀ i j, (writeSelect b).ws = some (i, j) →
          (stn (retireStore b (writeSelect b).wss) i j).busy = true ∧
          (stn (retireStore b (writeSelect b).wss) i j).remExec = 0 := by
        intro i j hw
        obtain ⟨hb1, hr1, hne1⟩ := hws i j hw
        have heq := retireStore_stn_ne b (writeSelect b).wss
          (fun i2 j2 hw2 => (hwss i2 j2 hw2).2.2) i j hne1
        rw [heq]
        exact ⟨hb1, hr1⟩
      obtain ⟨hc1, hc2, hc3⟩ := retireNonStore_pres
        (retireStore b (writeSelect b).wss) c hT1.1 (writeSelect b).ws hsel1
      refine ⟨hc1.trans hT1.2.1.cyc, ?_, hc3⟩
      rcases hc2 with h | h
      · rw [h]
        exact hT1.2.2
      · exact Or.inr h

/-- One full cycle of the engine: if the state was sound at its own
cycle bound, the successor is sound at its own (incremented) cycle
bound, and the restore of a not-taken BEQ can never raise
`emptyRestore` (a raised `IndexError` freezes the machine instead). -/
theorem nextCycle_pres (s : State)
    (hJ : s.crash = none → InvB s s.cycle) (hpc0 : 0 ≤ s.pc) :
    ((nextCycle s).crash = none →
      InvB (nextCycle s) (nextCycle s).cycle) ∧
    ((nextCycle s).crash = some Crash.emptyRestore →
      s.crash = some Crash.emptyRestore) := by
  unfold nextCycle
  simp only []
  by_cases hcr : s.crash.isSome
  · rw [if_pos hcr]
    exact ⟨hJ, fun he => he⟩
  · rw [if_neg hcr]
    have hcrn : s.crash = none := Option.not_isSome_iff_eq_none.mp hcr
    have hI := hJ hcrn
    have hst1 : CrashLe s (if s.pc < (s.program.length : Int) then issueStep s else s) ∧
        ((if s.pc < (s.program.length : Int) then issueStep s else s).crash = none →
          InvB (if s.pc < (s.program.length : Int) then issueStep s else s) (s.cycle + 1) ∧
          (if s.pc < (s.program.length : Int) then issueStep s else s).cycle = s.cycle) := by
      by_cases hpl : s.pc < (s.program.length : Int)
      · rw [if_pos hpl]
        exact issueStep_pres s hI hcrn hpc0 hpl
      · rw [if_neg hpl]
        refine ⟨CrashLe.crefl s, fun _ => ⟨InvB_mono hI ?_, rfl⟩⟩
        omega
    by_cases hc1 : (if s.pc < (s.program.length : Int) then issueStep s else s).crash.isSome
    · rw [if_pos hc1]
      refine ⟨fun hn => absurd hc1 (by rw [hn]; simp), fun he => ?_⟩
      rcases hst1.1 with h | h
      · rw [h] at he
        exact he
      · rw [h] at he
        simp at he
    · rw [if_neg hc1]
      have hc1n : (if s.pc < (s.program.length : Int) then issueStep s else s).crash = none :=
        Option.not_isSome_iff_eq_none.mp hc1
      obtain ⟨hI1, hcy1⟩ := hst1.2 hc1n
      have hT2 := executeStep_pres
        (if s.pc < (s.program.length : Int) then issueStep s else s)
        (s.cycle + 1) hI1
      by_cases hc2 : (executeStep (if s.pc < (s.program.length : Int) then issueStep s else s)).crash.isSome
      · rw [if_pos hc2]
        refine ⟨fun hn => absurd hc2 (by rw [hn]; simp), fun he => ?_⟩
        rcases hT2.2.2 with h | h
        · rw [h, hc1n] at he
          exact Option.noConfusion he
        · rw [h] at he
          simp at he
      · rw [if_neg hc2]
        have hc2n : (executeStep (if s.pc < (s.program.length : Int) then issueStep s else s)).crash = none :=
          Option.not_isSome_iff_eq_none.mp hc2
        obtain ⟨hw1, hw2, hw3⟩ := writeStep_pres
          (executeStep (if s.pc < (s.program.length : Int) then issueStep s else s))
          (s.cycle + 1) hT2.1
        by_cases hc3 : (writeStep (executeStep (if s.pc < (s.program.length : Int) then issueStep s else s))).crash.isSome
        · rw [if_pos hc3]
          refine ⟨fun hn => absurd hc3 (by rw [hn]; simp), fun he => ?_⟩
          rcases hw2 with h | h
          · rw [h, hc2n] at he
            exact Option.noConfusion he
          · rw [h] at he
            simp at he
        · rw [if_neg hc3]
          have hc3n : (writeStep (executeStep (if s.pc < (s.program.length : Int) then issueStep s else s))).crash = none :=
            Option.not_isSome_iff_eq_none.mp hc3
          have hcyc3 : (writeStep (executeStep (if s.pc < (s.program.length : Int) then issueStep s else s))).cycle = s.cycle := by
            rw [hw1, hT2.2.1.cyc, hcy1]
          refine ⟨fun _ => ?_, fun he => ?_⟩
          · have hI3' : InvB (writeStep (executeStep (if s.pc < (s.program.length : Int) then issueStep s else s)))
                ((writeStep (executeStep (if s.pc < (s.program.length : Int) then issueStep s else s))).cycle + 1) := by
              rw [hcyc3]
              exact hw3 hc3n
            exact InvB_cycle_inc hI3'
          · have he' : (writeStep (executeStep (if s.pc < (s.program.length : Int) then issueStep s else s))).crash =
                some Crash.emptyRestore := he
            rw [hc3n] at he'
            exact Option.noConfusion he'

/-- Every station of a freshly built bank is idle. -/
theorem mkBank_busy (hw : List HwRow) (base i j : Nat) :
    (((mkBank hw base).getD i []).getD j default).busy = false := by
  induction hw generalizing base i with
  | nil => rfl
  | cons r rest ih =>
    obtain ⟨n, ce, ca⟩ := r
    cases i with
    | zero =>
      show ((mkRow base n ce ca).getD j default).busy = false
      unfold mkRow
      by_cases hj : j < n
      · simp [List.getD_eq_getElem?_getD, List.getElem?_map,
          List.getElem?_range hj, mkStation]
      · rw [List.getD_eq_getElem?_getD,
          List.getElem?_eq_none (by simpa using Nat.le_of_not_lt hj)]
        exact station_default_busy
    | succ i2 =>
      show (((mkBank rest (base + n)).getD i2 []).getD j default).busy = false
      exact ih (base + n) i2

/-- A freshly constructed engine satisfies the invariant at its own
cycle bound, provided every control station has positive execution
latency. -/
theorem InvB_mkState (prog : List Instruction) (hw : List HwRow)
    (mem : Nat → Int) (pc0 : Int)
    (hlat : ctrlLatPos (mkState prog hw mem pc0)) :
    InvB (mkState prog hw mem pc0) (mkState prog hw mem pc0).cycle := by
  have hnb : ∀ i j, (stn (mkState prog hw mem pc0) i j).busy = false :=
    fun i j => mkBank_busy hw 1 i j
  refine ⟨?_, ?_, ?_, ?_, ?_, ?_, ?_, ?_, ?_⟩
  · show (1 : Int) ≤ 1
    omega
  · exact hlat
  · intro i j hb
    rw [hnb] at hb
    cases hb
  · intro i j hc hb
    rw [hnb] at hb
    cases hb
  · intro t ht
    exact absurd ht (List.not_mem_nil t)
  · exact List.chain'_nil
  · intro i j hc hb
    rw [hnb] at hb
    cases hb
  · intro i j i2 j2 hc hc2 hb
    rw [hnb] at hb
    cases hb
  · intro i j hc hb
    rw [hnb] at hb
    cases hb

/-- Claim C10 (amended): starting the engine on any decoded program,
hardware configuration whose BEQ and JUMP stations all have
`cycles_for_exec ≥ 1` (true of the default hardware), memory image and
initial PC, as long as the PC stays nonnegative, the restore of a
not-taken BEQ never finds the speculation stack empty: the
`self.system_status_queue[0]` access of `Tomasulo.write` cannot raise
`IndexError` in any cycle.  (The other fatal accesses — out-of-range
operands or addresses — freeze the machine with an ordinary
`IndexError` and are not of this kind.) -/
theorem C10_no_empty_restore (prog : List Instruction) (hw : List HwRow)
    (mem : Nat → Int) (pc0 : Int) (n : Nat)
    (hlat : ctrlLatPos (mkState prog hw mem pc0))
    (hpc : ∀ k, k < n → 0 ≤ (nextCycle^[k] (mkState prog hw mem pc0)).pc) :
    (nextCycle^[n] (mkState prog hw mem pc0)).crash ≠
      some Crash.emptyRestore := by
  have key : ∀ m, m ≤ n →
      ((nextCycle^[m] (mkState prog hw mem pc0)).crash = none →
        InvB (nextCycle^[m] (mkState prog hw mem pc0))
          (nextCycle^[m] (mkState prog hw mem pc0)).cycle) ∧
      (nextCycle^[m] (mkState prog hw mem pc0)).crash ≠
        some Crash.emptyRestore := by
    intro m
    induction m with
    | zero =>
      intro _
      refine ⟨fun _ => InvB_mkState prog hw mem pc0 hlat, fun he => ?_⟩
      exact Option.noConfusion he
    | succ m ih =>
      intro hm
      obtain ⟨ihJ, ihE⟩ := ih (by omega)
      rw [Function.iterate_succ_apply']
      obtain ⟨hA, hB⟩ := nextCycle_pres _ ihJ (hpc m (by omega))
      exact ⟨hA, fun he => ihE (hB he)⟩
  exact (key n (le_refl n)).2

theorem C10_no_empty_restore_witness :
    ctrlLatPos (mkState [] defaultHardware zeroMem 0) ∧
    (nextCycle^[0] (mkState [] defaultHardware zeroMem 0)).crash ≠
      some Crash.emptyRestore := by
  have hlat : ctrlLatPos (mkState [] defaultHardware zeroMem 0) := by
    intro i j hc hj
    rcases hc with rfl | rfl
    · have he : ((mkState ([] : List Instruction) defaultHardware zeroMem
          0).stations.getD 2 []).length = 2 := by decide
      rw [he] at hj
      have hj2 : j = 0 ∨ j = 1 := by omega
      rcases hj2 with rfl | rfl <;> decide
    · have he : ((mkState ([] : List Instruction) defaultHardware zeroMem
          0).stations.getD 3 []).length = 1 := by decide
      rw [he] at hj
      have hj2 : j = 0 := by omega
      subst hj2
      decide
  exact ⟨hlat, C10_no_empty_restore [] defaultHardware zeroMem 0 0 hlat
    (fun k hk => absurd hk (by omega))⟩

theorem registers_modInst (st : State) (k : Int)
    (f : Instruction → Instruction) :
    (modInst st k f).registers = st.registers := by
  unfold modInst
  cases pyNorm st.program.length k <;> rfl

/-- The station pass of the flush never touches the register file (only
stations and the rename table). -/
theorem flushStations_registers (st : State) (w : Int) :
    (flushStations st w).registers = st.registers := by
  unfold flushStations
  refine foldBank_pres (P := fun b2 : State => b2.registers = st.registers)
    st _ _ _ rfl ?_
  intro b2 i j h2
  unfold flushStn
  simp only []
  split_ifs with h1
  · exact h2
  · exact h2

/-- The result broadcast never touches the register file (only stations
and the `exec_start` stamps). -/
theorem broadcastResult_registers (Y : State) (w : Station) (wid : Nat) :
    (broadcastResult Y w wid).registers = Y.registers := by
  unfold broadcastResult
  refine foldBank_pres (P := fun b2 : State => b2.registers = Y.registers)
    Y _ _ _ rfl ?_
  intro b2 i j h2
  unfold broadcastStn
  simp only []
  split_ifs with h1 h2x h3 h4 h5
  all_goals first
    | exact h2
    | exact (registers_modInst _ _ _).trans h2
    | exact (registers_modInst _ _ _).trans ((registers_modInst _ _ _).trans h2)

/-- What the register write-back loop of `Tomasulo.write` leaves in
`registers[1]`: the retiring station's result exactly when register 1's
rename entry equals that station's id, and the old value otherwise
(loop steps for other registers write other indices, and the `k != 0`
guard makes the `k = 0` step a no-op). -/
theorem regWriteLoop_reg1 (Y : State) (sid : Nat) (res : Int)
    (hlen : 1 < Y.registers.length) :
    (regWriteLoop Y sid res).registers.getD 1 0 =
      if Y.registerStatus.getD 1 0 = sid then res
      else Y.registers.getD 1 0 := by
  have haux : ∀ (l : List Nat) (b : State), ¬ (1 ∈ l) →
      ((l.foldl (fun b2 k =>
        if b2.registerStatus.getD k 0 = sid ∧ k ≠ 0 then
          { b2 with registers := b2.registers.set k res,
                    registerStatus := b2.registerStatus.set k 0 }
        else b2) b).registers.getD 1 0) = b.registers.getD 1 0 := by
    intro l
    induction l with
    | nil =>
      intro b _
      rfl
    | cons k rest ih =>
      intro b hnot
      have hk1 : k ≠ 1 := by
        rintro rfl
        exact hnot (List.mem_cons_self 1 rest)
      have hrest : ¬ (1 ∈ rest) := fun hm => hnot (List.mem_cons_of_mem _ hm)
      rw [List.foldl_cons]
      rw [ih _ hrest]
      split_ifs with h1
      · exact getD_set_ne _ _ _ _ _ hk1
      · rfl
  unfold regWriteLoop
  rw [(by decide : List.range 8 = [0, 1, 2, 3, 4, 5, 6, 7])]
  rw [List.foldl_cons, List.foldl_cons]
  rw [if_neg (show ¬ (Y.registerStatus.getD 0 0 = sid ∧ (0 : Nat) ≠ 0) from
    fun h => h.2 rfl)]
  by_cases hc : Y.registerStatus.getD 1 0 = sid
  · rw [if_pos (show Y.registerStatus.getD 1 0 = sid ∧ (1 : Nat) ≠ 0 from
      ⟨hc, by decide⟩)]
    rw [haux _ _ (by decide)]
    rw [if_pos hc]
    show (Y.registers.set 1 res).getD 1 0 = res
    rw [getD_set_self]
    rw [if_pos hlen]
  · rw [if_neg (show ¬ (Y.registerStatus.getD 1 0 = sid ∧ (1 : Nat) ≠ 0) from
      fun h => hc h.1)]
    rw [haux _ _ (by decide)]
    rw [if_neg hc]

/-- Claim C5 (amended): when a JUMP station retires, the speculation
stack is cleared entirely and the flush pass runs; for a CALL, `pc` is
set to `a + inst_index + 1` and `registers[1]` is assigned the
displacement `a` (a CALL that completed execution carries the result
`inst_index + 1`), while for a RET `pc` is set to `vj` and the register
file is untouched.  The direct `registers[1] := a` write is not the
last word: JUMP retirement falls through into the register write-back
loop of the same cycle, which overwrites `registers[1]` with the
station result exactly when register 1's rename entry — after the
stack clear and the flush sweep — equals the retiring station's id, so
with a live rename R1 ends the write-back cycle holding the return
address `inst_index + 1` and not the displacement, and only a CALL
whose rename was diverted into a discarded snapshot keeps the
displacement. -/
theorem C5_jump_retirement (st3 : State) (s : Station)
    (hlen : 1 < st3.registers.length) :
    (retireJump st3 s).sysQueue = [] ∧
    (s.op = some Op.CALL →
      (retireJump st3 s).pc = s.a + (instAt st3 s.instIndex).index + 1 ∧
      (retireJump st3 s).registers = st3.registers.set 1 s.a ∧
      execResult Cat.JUMP s = s.instIndex + 1) ∧
    (¬ s.op = some Op.CALL →
      (retireJump st3 s).pc = s.vj ∧
      (retireJump st3 s).registers = st3.registers) ∧
    (broadcastResult (regWriteLoop (retireJump st3 s) s.id s.result) s
        s.id).registers.getD 1 0 =
      (if (retireJump st3 s).registerStatus.getD 1 0 = s.id then s.result
       else (retireJump st3 s).registers.getD 1 0) := by
  have hRJ : ∀ (X : State), X.sysQueue = [] →
      (flushAfterJump X s).sysQueue = [] ∧
      (flushAfterJump X s).pc = X.pc ∧
      (flushAfterJump X s).registers = X.registers := by
    intro X hXq
    obtain ⟨hRel, _⟩ := flushStations_spec X ((instAt X s.instIndex).issue)
    obtain ⟨_, _, hsq, hpc, _, _, _, _⟩ := hRel
    refine ⟨?_, ?_, ?_⟩
    · show (flushStations X ((instAt X s.instIndex).issue)).sysQueue = []
      rw [hsq, hXq]
    · exact hpc
    · exact flushStations_registers X _
  unfold retireJump
  simp only []
  by_cases hop : s.op = some Op.CALL
  · rw [if_pos hop]
    refine ⟨(hRJ _ rfl).1, fun _ => ⟨?_, ?_, ?_⟩, fun hn => absurd hop hn, ?_⟩
    · rw [(hRJ _ rfl).2.1]
    · rw [(hRJ _ rfl).2.2]
    · simp [execResult, hop]
    · rw [broadcastResult_registers]
      refine regWriteLoop_reg1 _ _ _ ?_
      rw [(hRJ _ rfl).2.2]
      show 1 < (st3.registers.set 1 s.a).length
      rw [List.length_set]
      exact hlen
  · rw [if_neg hop]
    refine ⟨(hRJ _ rfl).1, fun hc => absurd hc hop, fun _ => ⟨?_, ?_⟩, ?_⟩
    · rw [(hRJ _ rfl).2.1]
    · rw [(hRJ _ rfl).2.2]
    · rw [broadcastResult_registers]
      refine regWriteLoop_reg1 _ _ _ ?_
      rw [(hRJ _ rfl).2.2]
      exact hlen

/-- Witness for `C5_jump_retirement` at the `c5St` engine and the
retiring CALL station of its program. -/
theorem C5_jump_retirement_witness :
    1 < c5St.registers.length ∧
    ((retireJump c5St c5CallStn).sysQueue = [] ∧
    (c5CallStn.op = some Op.CALL →
      (retireJump c5St c5CallStn).pc =
        c5CallStn.a + (instAt c5St c5CallStn.instIndex).index + 1 ∧
      (retireJump c5St c5CallStn).registers =
        c5St.registers.set 1 c5CallStn.a ∧
      execResult Cat.JUMP c5CallStn = c5CallStn.instIndex + 1) ∧
    (¬ c5CallStn.op = some Op.CALL →
      (retireJump c5St c5CallStn).pc = c5CallStn.vj ∧
      (retireJump c5St c5CallStn).registers = c5St.registers) ∧
    (broadcastResult (regWriteLoop (retireJump c5St c5CallStn) c5CallStn.id
        c5CallStn.result) c5CallStn c5CallStn.id).registers.getD 1 0 =
      (if (retireJump c5St c5CallStn).registerStatus.getD 1 0 = c5CallStn.id
       then c5CallStn.result
       else (retireJump c5St c5CallStn).registers.getD 1 0)) :=
  ⟨by decide, C5_jump_retirement c5St c5CallStn (by decide)⟩

end Tomasulo